import Mathlib

/-!
Shallow embedding of `parsers/parse-clang-diagnostic-groups.py`.

The Python program parses a JSON dump of clang's diagnostic tables
(`llvm-tblgen -dump-json`), reconstructs the switch/group/diagnostic graph
(`ClangDiagnostics.__init__`), computes derived boolean properties over the
graph (`is_dummy`, `has_enabled_diagnostic`, `has_disabled_diagnostic`,
`is_enabled_by_default`, `partially_enabled_by_default`, `is_top_level`),
and renders sorted, indented textual reports (`print_switch`,
`print_references`, `main`).

Modelling choices:
* Python objects `ClangDiagGroup` live in a mutable heap; we model the heap
  as a list `store : List GroupState` and object references as indices into
  it.  The dicts `self.groups` and `self.switches` are modelled as
  insertion-ordered association lists (Python dicts preserve insertion
  order).
* A `ClangWarningSwitch` object is uniquely determined by the exact string
  key under which it is registered in `self.switches`, and carries the list
  of group indices appended to its `groups` attribute, so the switches dict
  is `List (String × List Nat)`.
* Exceptions (`KeyError`) are modelled with `Except String`.
* The recursive derived-property functions and the recursive renderer are
  not structurally terminating on a cyclic group graph (the Python code has
  no visited set), so they are embedded fuel-indexed: `none` means the
  recursion did not bottom out within the given fuel, i.e. for a
  computation that returns `none` at every fuel the Python original does
  not terminate.
* Python's `str.lower` and string comparison are modelled on the
  underlying character lists (`lowerChars`, `lexCmp`), comparing by code
  point exactly as Python does.
* Python's `sorted` is a stable sort; it is modelled by
  `List.insertionSort`, which is stable for the total preorders used here.
* Python's `set` has a run-dependent iteration order; every place where the
  program turns a set into a list (`list(set(...))` in
  `ClangWarningSwitch.get_messages`, and `sorted(toplevel_defaults)` in
  `main`) is parameterised by an enumeration function `σ` which is assumed
  only to produce a permutation of the canonical (first-occurrence
  deduplicated) enumeration.
-/

/-- Python `str.lower` on one character, restricted to its effect on the
code points that occur in switch names (ASCII): maps `A`-`Z` to `a`-`z`. -/
def lowerChar (c : Char) : Char :=
  if 65 ≤ c.toNat ∧ c.toNat ≤ 90 then Char.ofNat (c.toNat + 32) else c

/-- Python `str.lower` on the character list of a string. -/
def lowerChars (s : List Char) : List Char := s.map lowerChar

/-- Codepoint-wise lexicographic comparison of two character lists, the
comparison Python uses to order strings. -/
def lexCmp : List Char → List Char → Ordering
  | [], [] => .eq
  | [], _ :: _ => .lt
  | _ :: _, [] => .gt
  | a :: as, b :: bs =>
      if a.toNat < b.toNat then .lt
      else if b.toNat < a.toNat then .gt
      else lexCmp as bs

/-- Strict lexicographic order on character lists (Python `s < t`). -/
def lexLt (a b : List Char) : Bool :=
  match lexCmp a b with
  | .lt => true
  | _ => false

/-- Non-strict lexicographic order on character lists (Python `s <= t`). -/
def lexLe (a b : List Char) : Bool :=
  match lexCmp a b with
  | .gt => false
  | _ => true

/-- `ClangWarningSwitch.__eq__`: equality of switches is case-insensitive
comparison of their names (`self.name.lower() == other.name.lower()`). -/
def switchEq (a b : String) : Bool := lowerChars a.data == lowerChars b.data

/-- `ClangWarningSwitch.__lt__`: switches order by
`self.name.lower() < other.name.lower()`. -/
def switchLt (a b : String) : Bool := lexLt (lowerChars a.data) (lowerChars b.data)

/-- The total preorder by which lists of switches are sorted
(`sorted(...)` on switch objects, via `__lt__` and stability). -/
def switchLe (a b : String) : Bool := lexLe (lowerChars a.data) (lowerChars b.data)

/-- `ClangWarningSwitch.__hash__`: `hash(self.name.lower())`. -/
def switchHash (a : String) : UInt64 := hash (lowerChars a.data)

/-- Sequential conjunction over `Option Bool` results with Python's early
exit: mirrors `for x in l: if not f(x): return False` followed by
`return True`, where `none` (non-termination of a call) propagates. -/
def optAll (f : α → Option Bool) : List α → Option Bool
  | [] => some true
  | x :: xs =>
      match f x with
      | none => none
      | some false => some false
      | some true => optAll f xs

/-- Sequential disjunction over `Option Bool` results with Python's early
exit: mirrors `for x in l: if f(x): return True` followed by
`return False`. -/
def optAny (f : α → Option Bool) : List α → Option Bool
  | [] => some false
  | x :: xs =>
      match f x with
      | none => none
      | some true => some true
      | some false => optAny f xs

/-- Sequential `Option`-valued map over a list (a Python loop building a
list, where `none` from one element aborts the whole computation). -/
def optMap (f : α → Option β) : List α → Option (List β)
  | [] => some []
  | x :: xs =>
      match f x with
      | none => none
      | some y =>
          match optMap f xs with
          | none => none
          | some ys => some (y :: ys)

/-- Sequential `Option`-valued filter over a list (a Python list
comprehension whose predicate may fail to terminate). -/
def optFilter (f : α → Option Bool) : List α → Option (List α)
  | [] => some []
  | x :: xs =>
      match f x with
      | none => none
      | some true =>
          match optFilter f xs with
          | none => none
          | some ys => some (x :: ys)
      | some false => optFilter f xs

/-- Python dict entry assignment `d[k] = v` on an insertion-ordered
association list: replaces the value of an existing key in place, appends
a new key at the end. -/
def assocSet (l : List (String × α)) (k : String) (v : α) : List (String × α) :=
  match l with
  | [] => [(k, v)]
  | (k', v') :: rest =>
      if k' = k then (k', v) :: rest else (k', v') :: assocSet rest k v

/-- One clang warning message (class `ClangDiagnostic`), after
construction. -/
structure ClangDiagnostic where
  name : String
  text : String
  group_name : Option String
  enabled_by_default : Bool
deriving DecidableEq, Repr

/-- The fields of a JSON `Diagnostic` record that the program reads:
`!name`, `Text`, `Group` (JSON `null` or `{def: ...}`), and the two
optional severity fields (`none` models the key being absent from the
record, `some tok` models `{def: tok}`). -/
structure DiagObj where
  name : String
  text : String
  group : Option String
  defaultSeverity : Option String
  defaultMapping : Option String
deriving DecidableEq, Repr

/-- `ClangDiagnostic.__init__`: reads `DefaultSeverity` if present
(clang 3.5+), otherwise reads `DefaultMapping` (clang 3.4 and earlier);
a record with neither raises `KeyError: DefaultMapping`. -/
def ClangDiagnostic.ofObj (o : DiagObj) : Except String ClangDiagnostic :=
  match o.defaultSeverity with
  | some sev => .ok ⟨o.name, o.text, o.group, sev ≠ "SEV_Ignored"⟩
  | none =>
      match o.defaultMapping with
      | some m => .ok ⟨o.name, o.text, o.group, m ≠ "MAP_IGNORE"⟩
      | none => .error "KeyError: DefaultMapping"

/-- The fields of a JSON `DiagGroup` record that the program reads:
`!name`, `GroupName` (the switch name) and `SubGroups` (the `def` names). -/
structure GroupObj where
  name : String
  groupName : String
  subGroups : List String
deriving DecidableEq, Repr

/-- One `ClangDiagGroup` object (one heap cell).  `children` holds store
indices, resolved by the second construction pass. -/
structure GroupState where
  name : String
  switch_name : String
  child_names : List String
  children : List Nat
  has_parent : Bool
  diagnostics : List ClangDiagnostic
deriving DecidableEq, Repr

/-- The state of a `ClangDiagnostics` object: the heap of group objects,
the `self.groups` dict (group name → store index) and the `self.switches`
dict (exact switch name → the `groups` list of that switch object, as
store indices). -/
structure Catalog where
  store : List GroupState
  groupsDict : List (String × Nat)
  switchKeys : List (String × List Nat)
deriving DecidableEq, Repr

/-- The parts of the tblgen JSON document the program reads: the two
`!instanceof` index lists and the per-record field objects (an association
list modelling the top-level JSON object). -/
structure TblgenJson where
  groupRecords : List (String × GroupObj)
  diagRecords : List (String × DiagObj)
  diagGroupList : List String
  diagnosticList : List String
deriving Repr

/-- Replace the group object at store index `i` (a Python attribute
mutation on the referenced object). -/
def storeModify (cat : Catalog) (i : Nat) (f : GroupState → GroupState) : Catalog :=
  match cat.store.get? i with
  | some g => { cat with store := cat.store.set i (f g) }
  | none => cat

/-- `get_switch` on the switches dict during construction, fused with the
immediately following `self.switches[group.switch_name].groups.append(group)`
of `ClangDiagnostics.__init__`: ensure a switch entry exists for the exact
key `swName` and append the new group's index to its `groups` list. -/
def switchAppend (keys : List (String × List Nat)) (swName : String) (idx : Nat) :
    List (String × List Nat) :=
  match keys with
  | [] => [(swName, [idx])]
  | (k, l) :: rest =>
      if k = swName then (k, l ++ [idx]) :: rest
      else (k, l) :: switchAppend rest swName idx

/-- First pass of `ClangDiagnostics.__init__`: for each name in
`json_data["!instanceof"]["DiagGroup"]`, look up its record (a missing
record is a `KeyError`), build the `ClangDiagGroup` (which registers a
switch for its `GroupName` via `get_switch`), store it in `self.groups`
and append it to its switch's `groups`. -/
def pass1 (records : List (String × GroupObj)) :
    List String → Catalog → Except String Catalog
  | [], cat => .ok cat
  | gname :: rest, cat =>
      match records.lookup gname with
      | none => .error ("KeyError: " ++ gname)
      | some obj =>
          let idx := cat.store.length
          let g : GroupState :=
            ⟨obj.name, obj.groupName, obj.subGroups, [], false, []⟩
          pass1 records rest
            { store := cat.store ++ [g]
              groupsDict := assocSet cat.groupsDict gname idx
              switchKeys := switchAppend cat.switchKeys obj.groupName idx }

/-- Resolve one group's `child_names` against `self.groups`; a name that
resolves to no known group is a `KeyError` (fatal). -/
def resolveNames (dict : List (String × Nat)) : List String → Except String (List Nat)
  | [] => .ok []
  | n :: rest =>
      match dict.lookup n with
      | none => .error ("KeyError: " ++ n)
      | some i =>
          match resolveNames dict rest with
          | .error e => .error e
          | .ok is => .ok (i :: is)

/-- Second pass of `ClangDiagnostics.__init__`: for each group (in dict
order) set `group.children` to the resolved child objects and set
`has_parent = True` on each resolved child. -/
def pass2 : List (String × Nat) → Catalog → Except String Catalog
  | [], cat => .ok cat
  | (_, idx) :: rest, cat =>
      match cat.store.get? idx with
      | none => .error "unreachable: dangling groups entry"
      | some g =>
          match resolveNames cat.groupsDict g.child_names with
          | .error e => .error e
          | .ok cidxs =>
              let cat := storeModify cat idx (fun h => { h with children := cidxs })
              let cat := cidxs.foldl
                (fun c ci => storeModify c ci (fun h => { h with has_parent := true })) cat
              pass2 rest cat

/-- Third pass of `ClangDiagnostics.__init__`: for each name in
`json_data["!instanceof"]["Diagnostic"]`, look up its record and construct
the `ClangDiagnostic`; if its group name is present and resolves in
`self.groups`, append the diagnostic to that group, otherwise drop it
silently. -/
def pass3 (records : List (String × DiagObj)) :
    List String → Catalog → Except String Catalog
  | [], cat => .ok cat
  | dname :: rest, cat =>
      match records.lookup dname with
      | none => .error ("KeyError: " ++ dname)
      | some obj =>
          match ClangDiagnostic.ofObj obj with
          | .error e => .error e
          | .ok d =>
              match d.group_name with
              | none => pass3 records rest cat
              | some gn =>
                  match cat.groupsDict.lookup gn with
                  | none => pass3 records rest cat
                  | some idx =>
                      pass3 records rest
                        (storeModify cat idx
                          (fun h => { h with diagnostics := h.diagnostics ++ [d] }))

/-- `ClangDiagnostics.__init__`: the three construction passes. -/
def construct (j : TblgenJson) : Except String Catalog :=
  match pass1 j.groupRecords j.diagGroupList ⟨[], [], []⟩ with
  | .error e => .error e
  | .ok cat1 =>
      match pass2 cat1.groupsDict cat1 with
      | .error e => .error e
      | .ok cat2 => pass3 j.diagRecords j.diagnosticList cat2

/-- `ClangDiagnostics.get_switch`: return the switch registered under the
exact name, creating and registering an empty one on `KeyError`.  Returns
the (possibly extended) catalog together with the switch's group list. -/
def getSwitch (cat : Catalog) (name : String) : Catalog × List Nat :=
  match cat.switchKeys.lookup name with
  | some l => (cat, l)
  | none => ({ cat with switchKeys := cat.switchKeys ++ [(name, [])] }, [])

/-- `ClangDiagGroup.get_messages`: the texts of the group's own
diagnostics, filtered to the default-enabled ones when requested; does not
recurse into children. -/
def groupMessages (g : GroupState) (enabled_by_default : Bool) : List String :=
  if enabled_by_default then
    (g.diagnostics.filter (·.enabled_by_default)).map (·.text)
  else
    g.diagnostics.map (·.text)

/-- `ClangDiagGroup.is_dummy`, fuel-indexed (the Python recursion has no
cycle guard): `False` if the group owns a diagnostic, otherwise `True` iff
every child is a dummy, with the loop's early exit on a non-dummy child. -/
def isDummyF (st : List GroupState) : Nat → Nat → Option Bool
  | 0, _ => none
  | fuel + 1, idx =>
      match st.get? idx with
      | none => none
      | some g =>
          if g.diagnostics ≠ [] then some false
          else optAll (fun c => isDummyF st fuel c) g.children

/-- `ClangDiagGroup.has_disabled_diagnostic`, fuel-indexed: a directly
owned disabled diagnostic, or recursively one in some child. -/
def hasDisabledF (st : List GroupState) : Nat → Nat → Option Bool
  | 0, _ => none
  | fuel + 1, idx =>
      match st.get? idx with
      | none => none
      | some g =>
          if g.diagnostics.any (fun d => !d.enabled_by_default) then some true
          else optAny (fun c => hasDisabledF st fuel c) g.children

/-- `ClangDiagGroup.has_enabled_diagnostic`, fuel-indexed. -/
def hasEnabledF (st : List GroupState) : Nat → Nat → Option Bool
  | 0, _ => none
  | fuel + 1, idx =>
      match st.get? idx with
      | none => none
      | some g =>
          if g.diagnostics.any (fun d => d.enabled_by_default) then some true
          else optAny (fun c => hasEnabledF st fuel c) g.children

/-- The `groups` list of the switch registered under the exact name
`sw` (empty when no such switch exists). -/
def switchGroups (cat : Catalog) (sw : String) : List Nat :=
  (cat.switchKeys.lookup sw).getD []

/-- `ClangWarningSwitch.is_dummy`: every owned group is a dummy (early
exit on the first non-dummy group). -/
def swIsDummyF (cat : Catalog) (fuel : Nat) (sw : String) : Option Bool :=
  optAll (fun i => isDummyF cat.store fuel i) (switchGroups cat sw)

/-- `ClangWarningSwitch.is_enabled_by_default`: `False` on the first owned
group with a disabled diagnostic, otherwise `not self.is_dummy()`. -/
def swIsEnabledF (cat : Catalog) (fuel : Nat) (sw : String) : Option Bool :=
  match optAny (fun i => hasDisabledF cat.store fuel i) (switchGroups cat sw) with
  | none => none
  | some true => some false
  | some false =>
      match swIsDummyF cat fuel sw with
      | none => none
      | some b => some (!b)

/-- `ClangWarningSwitch.partially_enabled_by_default`: fold over the owned
groups computing both `has_disabled_diagnostic` and
`has_enabled_diagnostic` for every group (no early exit), returning the
conjunction of the two accumulated flags. -/
def swPartiallyF (cat : Catalog) (fuel : Nat) (sw : String) : Option Bool :=
  go (switchGroups cat sw) false false
where
  go : List Nat → Bool → Bool → Option Bool
  | [], hasEn, hasDis => some (hasEn && hasDis)
  | i :: rest, hasEn, hasDis =>
      match hasDisabledF cat.store fuel i with
      | none => none
      | some d =>
          match hasEnabledF cat.store fuel i with
          | none => none
          | some e => go rest (hasEn || e) (hasDis || d)

/-- `ClangWarningSwitch.is_top_level`: no owned group has a parent. -/
def swIsTopLevel (cat : Catalog) (sw : String) : Bool :=
  (switchGroups cat sw).all
    (fun i => !(((cat.store.get? i).map (·.has_parent)).getD false))

/-- The `or` of `is_enabled_by_default` and
`partially_enabled_by_default` with Python's short-circuit (the second is
only evaluated when the first is `False`). -/
def swEnabledOrPartialF (cat : Catalog) (fuel : Nat) (sw : String) : Option Bool :=
  match swIsEnabledF cat fuel sw with
  | none => none
  | some true => some true
  | some false => swPartiallyF cat fuel sw

/-- `ClangWarningSwitch.get_child_switches`: the switches (identified by
their exact registered name) of the direct child groups of all owned
groups, in order and without deduplication, filtered by
`is_enabled_by_default() or partially_enabled_by_default()` when
`enabled_by_default` is `True`. -/
def getChildSwitchesF (cat : Catalog) (fuel : Nat) (sw : String)
    (enabled_by_default : Bool) : Option (List String) :=
  let childGroups := (switchGroups cat sw).flatMap
    (fun i => ((cat.store.get? i).map (·.children)).getD [])
  match optMap (fun i => (cat.store.get? i).map (·.switch_name)) childGroups with
  | none => none
  | some childSwitches =>
      if enabled_by_default then
        optFilter (fun s => swEnabledOrPartialF cat fuel s) childSwitches
      else some childSwitches

/-- `ClangWarningSwitch.get_messages`: the concatenation of the owned
groups' messages, deduplicated through a `set` and enumerated in the
set's run-dependent iteration order, modelled by the enumeration
function `σ` applied to the canonical deduplicated list. -/
def swMessages (σ : List String → List String) (cat : Catalog) (sw : String)
    (enabled_by_default : Bool) : List String :=
  σ (((switchGroups cat sw).flatMap
    (fun i => ((cat.store.get? i).map (groupMessages · enabled_by_default)).getD [])).dedup)

/-- The output-mode toggles of the command line (`--unique`,
`--top-level`, `--text`). -/
structure Args where
  unique : Bool
  top_level : Bool
  text : Bool
deriving DecidableEq, Repr

/-- `"  " * level`. -/
def indentStr : Nat → String
  | 0 => ""
  | n + 1 => "  " ++ indentStr n

/-- `create_comment_text`, fuel-indexed through the derived-property
calls it makes. -/
def commentTextF (cat : Catalog) (fuel : Nat) (sw : String) (args : Args)
    (enabled_by_default : Bool) : Option String :=
  match swIsDummyF cat fuel sw with
  | none => none
  | some true => some " # DUMMY switch"
  | some false =>
      if args.unique then
        match swIsEnabledF cat fuel sw with
        | none => none
        | some true => some " # Enabled by default."
        | some false =>
            match swPartiallyF cat fuel sw with
            | none => none
            | some true => some " # Partially enabled by default."
            | some false => some ""
      else
        if enabled_by_default then
          match swPartiallyF cat fuel sw with
          | none => none
          | some true => some " (partial)"
          | some false => some ""
        else some ""

/-- The sort `sorted(switch.get_child_switches(...))` of switch objects by
`__lt__` (stable, hence by the total preorder `switchLe`). -/
def sortSwitches (l : List String) : List String :=
  List.insertionSort (fun a b => switchLe a b = true) l

/-- The sort `sorted(...)` of message strings (Python string `<=`). -/
def sortStrings (l : List String) : List String :=
  List.insertionSort (fun a b => lexLe a.data b.data = true) l

/-- `print_switch`/`print_references`, fuel-indexed on the recursive
descent (which, like the Python original, has no visited set): returns the
printed lines, or `none` when the recursion does not bottom out within
`fuel`. -/
def printSwitchF (cat : Catalog) (σ : List String → List String) (args : Args)
    (enabled_by_default : Bool) : Nat → String → Nat → Option (List String)
  | 0, _, _ => none
  | fuel + 1, sw, level =>
      match commentTextF cat (fuel + 1) sw args enabled_by_default with
      | none => none
      | some comment =>
          let line := "# " ++ indentStr level ++ "-W" ++ sw ++ comment
          let msgLines :=
            if args.text then
              (sortStrings (swMessages σ cat sw enabled_by_default)).map
                (fun item => "#       " ++ indentStr level ++ item)
            else []
          match getChildSwitchesF cat (fuel + 1) sw enabled_by_default with
          | none => none
          | some children =>
              match optMap
                  (fun child =>
                    printSwitchF cat σ args enabled_by_default fuel child (level + 1))
                  (sortSwitches children) with
              | none => none
              | some recLines => some (line :: msgLines ++ recLines.flatten)

/-- `print_references` at the top of the recursion (as called from
`main` at `level + 1 = 1`). -/
def printReferencesF (cat : Catalog) (σ : List String → List String) (args : Args)
    (enabled_by_default : Bool) (fuel : Nat) (sw : String) (level : Nat) :
    Option (List String) :=
  match getChildSwitchesF cat fuel sw enabled_by_default with
  | none => none
  | some children =>
      match optMap
          (fun child => printSwitchF cat σ args enabled_by_default fuel child level)
          (sortSwitches children) with
      | none => none
      | some recLines => some recLines.flatten

/-- The exact switch names registered in the catalog, in dict order
(`diagnostics.switches.values()`). -/
def switchNames (cat : Catalog) : List String := cat.switchKeys.map (·.1)

/-- First-occurrence deduplication of a list of switch names by the
case-insensitive switch equality, with `seen` the names already kept. -/
def ciDedupAux (seen : List String) : List String → List String
  | [] => []
  | s :: rest =>
      if seen.any (fun t => switchEq s t) then ciDedupAux seen rest
      else s :: ciDedupAux (s :: seen) rest

/-- The contents, in insertion order, of a Python `set` built from switch
objects in list order (adding an equal element leaves the existing one). -/
def ciDedupFwd (l : List String) : List String := ciDedupAux [] l

/-- The `all_defaults` set of `main`: the switches (in dict order) with
`is_enabled_by_default() or partially_enabled_by_default()`, collapsed by
the set's case-insensitive equality keeping first occurrences. -/
def allDefaultsF (cat : Catalog) (fuel : Nat) : Option (List String) :=
  match optFilter (fun s => swEnabledOrPartialF cat fuel s) (switchNames cat) with
  | none => none
  | some filtered => some (ciDedupFwd filtered)

/-- The `children` collection of `main`'s top-level section: all child
switches (with `enabled_only = True`) of the `all_defaults` switches;
only its case-insensitive membership is consumed. -/
def defaultChildrenF (cat : Catalog) (fuel : Nat) (defaults : List String) :
    Option (List String) :=
  match optMap (fun s => getChildSwitchesF cat fuel s true) defaults with
  | none => none
  | some childLists => some childLists.flatten

/-- The top-level-mode preamble of `main`: the `# enabled by default:`
section, whose roots are `all_defaults - children` enumerated in the
run-dependent set order `σsw` and then sorted. -/
def topSectionF (cat : Catalog) (σmsg σsw : List String → List String)
    (args : Args) (fuel : Nat) : Option (List String) :=
  match allDefaultsF cat fuel with
  | none => none
  | some defaults =>
      match defaultChildrenF cat fuel defaults with
      | none => none
      | some children =>
          let toplevel :=
            defaults.filter (fun s => !(children.any (fun t => switchEq s t)))
          let roots := sortSwitches (σsw toplevel)
          match optMap (fun s => printSwitchF cat σmsg args true fuel s 1) roots with
          | none => none
          | some printed => some ("# enabled by default:" :: printed.flatten)

/-- The main loop of `main` over the sorted switches: skip logic in
top-level mode, the `-W` line with its comment, optional message lines,
and (unless `--unique`) the recursive references. -/
def mainLoopF (cat : Catalog) (σ : List String → List String) (args : Args)
    (fuel : Nat) : List String → Option (List String)
  | [] => some []
  | s :: rest =>
      let skip? : Option Bool :=
        if args.top_level then
          if !(swIsTopLevel cat s) then some true
          else swIsEnabledF cat fuel s
        else some false
      match skip? with
      | none => none
      | some true => mainLoopF cat σ args fuel rest
      | some false =>
          match commentTextF cat fuel s args false with
          | none => none
          | some comment =>
              let msgLines :=
                if args.text then
                  (sortStrings (swMessages σ cat s false)).map
                    (fun item => "#     " ++ item)
                else []
              match
                (if args.unique then some []
                 else printReferencesF cat σ args false fuel s 1) with
              | none => none
              | some refs =>
                  match mainLoopF cat σ args fuel rest with
                  | none => none
                  | some tail =>
                      some (("-W" ++ s ++ comment) :: msgLines ++ refs ++ tail)

/-- The whole output of `main` on an already-constructed catalog: the
optional top-level preamble followed by the main loop over
`sorted(diagnostics.switches.values())`. -/
def mainOutputF (cat : Catalog) (args : Args) (fuel : Nat)
    (σmsg σsw : List String → List String) : Option (List String) :=
  match (if args.top_level then topSectionF cat σmsg σsw args fuel else some []) with
  | none => none
  | some top =>
      match mainLoopF cat σmsg args fuel (sortSwitches (switchNames cat)) with
      | none => none
      | some rest => some (top ++ rest)

/-- A `Diagnostic` record with neither `DefaultSeverity` nor
`DefaultMapping`. -/
def noSeverityObj : DiagObj :=
  ⟨"diag_nosev", "no severity given", some "grp_a", none, none⟩

/-- An input whose group/child graph is a two-cycle (`grp_a` lists
`grp_b` as a subgroup and vice versa) and has no diagnostics; accepted by
construction, since the program never checks for cycles. -/
def cycInput : TblgenJson where
  groupRecords :=
    [("grp_a", ⟨"grp_a", "A", ["grp_b"]⟩), ("grp_b", ⟨"grp_b", "B", ["grp_a"]⟩)]
  diagRecords := []
  diagGroupList := ["grp_a", "grp_b"]
  diagnosticList := []

/-- The catalog `construct cycInput` produces. -/
def cycCat : Catalog where
  store :=
    [⟨"grp_a", "A", ["grp_b"], [1], true, []⟩,
     ⟨"grp_b", "B", ["grp_a"], [0], true, []⟩]
  groupsDict := [("grp_a", 0), ("grp_b", 1)]
  switchKeys := [("A", [0]), ("B", [1])]

/-- The two-cycle input with one enabled and one disabled diagnostic in
each group, so that the derived-property recursions all terminate by
early exit while the renderer's descent still cycles. -/
def cycInput2 : TblgenJson where
  groupRecords :=
    [("grp_a", ⟨"grp_a", "A", ["grp_b"]⟩), ("grp_b", ⟨"grp_b", "B", ["grp_a"]⟩)]
  diagRecords :=
    [("d_en_a", ⟨"d_en_a", "enabled a", some "grp_a", some "SEV_Warning", none⟩),
     ("d_dis_a", ⟨"d_dis_a", "disabled a", some "grp_a", some "SEV_Ignored", none⟩),
     ("d_en_b", ⟨"d_en_b", "enabled b", some "grp_b", some "SEV_Warning", none⟩),
     ("d_dis_b", ⟨"d_dis_b", "disabled b", some "grp_b", some "SEV_Ignored", none⟩)]
  diagGroupList := ["grp_a", "grp_b"]
  diagnosticList := ["d_en_a", "d_dis_a", "d_en_b", "d_dis_b"]

/-- The catalog `construct cycInput2` produces. -/
def cycCat2 : Catalog where
  store :=
    [⟨"grp_a", "A", ["grp_b"], [1], true,
      [⟨"d_en_a", "enabled a", some "grp_a", true⟩,
       ⟨"d_dis_a", "disabled a", some "grp_a", false⟩]⟩,
     ⟨"grp_b", "B", ["grp_a"], [0], true,
      [⟨"d_en_b", "enabled b", some "grp_b", true⟩,
       ⟨"d_dis_b", "disabled b", some "grp_b", false⟩]⟩]
  groupsDict := [("grp_a", 0), ("grp_b", 1)]
  switchKeys := [("A", [0]), ("B", [1])]

/-- An input where the switch `S` owns one group with two child groups
that share the switch name `X`, so `get_child_switches` yields the same
switch twice. -/
def dupInput : TblgenJson where
  groupRecords :=
    [("grp_s", ⟨"grp_s", "S", ["grp_c1", "grp_c2"]⟩),
     ("grp_c1", ⟨"grp_c1", "X", []⟩),
     ("grp_c2", ⟨"grp_c2", "X", []⟩)]
  diagRecords :=
    [("d1", ⟨"d1", "msg one", some "grp_c1", some "SEV_Warning", none⟩)]
  diagGroupList := ["grp_s", "grp_c1", "grp_c2"]
  diagnosticList := ["d1"]

/-- The catalog `construct dupInput` produces. -/
def dupCat : Catalog where
  store :=
    [⟨"grp_s", "S", ["grp_c1", "grp_c2"], [1, 2], false, []⟩,
     ⟨"grp_c1", "X", [], [], true,
      [⟨"d1", "msg one", some "grp_c1", true⟩]⟩,
     ⟨"grp_c2", "X", [], [], true, []⟩]
  groupsDict := [("grp_s", 0), ("grp_c1", 1), ("grp_c2", 2)]
  switchKeys := [("S", [0]), ("X", [1, 2])]

/-- The round-trip example of the spec: group `G1` (switch `foo`, no
subgroups) with one enabled diagnostic, group `G2` (switch `bar`,
subgroup `G1`) with one disabled diagnostic. -/
def rtInput : TblgenJson where
  groupRecords :=
    [("G1", ⟨"G1", "foo", []⟩), ("G2", ⟨"G2", "bar", ["G1"]⟩)]
  diagRecords :=
    [("d_foo", ⟨"d_foo", "foo message", some "G1", some "SEV_Warning", none⟩),
     ("d_bar", ⟨"d_bar", "bar message", some "G2", some "SEV_Ignored", none⟩)]
  diagGroupList := ["G1", "G2"]
  diagnosticList := ["d_foo", "d_bar"]

/-- The catalog `construct rtInput` produces. -/
def rtCat : Catalog where
  store :=
    [⟨"G1", "foo", [], [], true,
      [⟨"d_foo", "foo message", some "G1", true⟩]⟩,
     ⟨"G2", "bar", ["G1"], [0], false,
      [⟨"d_bar", "bar message", some "G2", false⟩]⟩]
  groupsDict := [("G1", 0), ("G2", 1)]
  switchKeys := [("foo", [0]), ("bar", [1])]

/-- An input whose group graph is acyclic (two unrelated parent-child
chains) but whose switch-level child graph is cyclic, because the switch
names are crossed: `g1` (switch `A`) has child `g2` (switch `B`), and
`g3` (switch `B`) has child `g4` (switch `A`). -/
def crossInput : TblgenJson where
  groupRecords :=
    [("g1", ⟨"g1", "A", ["g2"]⟩), ("g2", ⟨"g2", "B", []⟩),
     ("g3", ⟨"g3", "B", ["g4"]⟩), ("g4", ⟨"g4", "A", []⟩)]
  diagRecords := []
  diagGroupList := ["g1", "g2", "g3", "g4"]
  diagnosticList := []

/-- The catalog `construct crossInput` produces. -/
def crossCat : Catalog where
  store :=
    [⟨"g1", "A", ["g2"], [1], false, []⟩,
     ⟨"g2", "B", [], [], true, []⟩,
     ⟨"g3", "B", ["g4"], [3], false, []⟩,
     ⟨"g4", "A", [], [], true, []⟩]
  groupsDict := [("g1", 0), ("g2", 1), ("g3", 2), ("g4", 3)]
  switchKeys := [("A", [0, 3]), ("B", [1, 2])]

/-- The edge relation of the resolved group graph: group `i` lists group
`j` among its children. -/
def childRel (st : List GroupState) (i j : Nat) : Prop :=
  ∃ g, st.get? i = some g ∧ j ∈ g.children

/-- Reachability in the resolved group graph (a group, itself, and all
its transitive children): the transitive closure the spec's derived
properties quantify over. -/
def Reaches (st : List GroupState) : Nat → Nat → Prop :=
  Relation.ReflTransGen (childRel st)

/-- A decidable certificate that the group graph is acyclic: a rank
function that strictly decreases along every child edge (such a function
exists exactly when the finite graph has no cycle), with all child
indices in range. -/
def rankOKb (st : List GroupState) (rank : Nat → Nat) : Bool :=
  (List.range st.length).all (fun i =>
    (((st.get? i).map (·.children)).getD []).all
      (fun c => decide (c < st.length) && decide (rank c < rank i)))

/-- The Python recursion `ClangDiagGroup.is_dummy` terminates on group
`i`: some fuel suffices. -/
def IsDummyTerminates (st : List GroupState) (i : Nat) : Prop :=
  ∃ fuel b, isDummyF st fuel i = some b

/-- The Python recursion `print_switch` terminates on switch `sw`: some
fuel suffices. -/
def PrintTerminates (cat : Catalog) (args : Args) (enabled_by_default : Bool)
    (sw : String) : Prop :=
  ∃ fuel out, printSwitchF cat id args enabled_by_default fuel sw 0 = some out

/-- `σ` is a legitimate enumeration of Python sets: it returns its input
list in some (run-dependent) order. -/
def PermFn (σ : List String → List String) : Prop :=
  ∀ l, (σ l).Perm l

/-- An input containing a `Diagnostic` record with neither severity
field. -/
def noSevInput : TblgenJson where
  groupRecords := [("grp_a", ⟨"grp_a", "A", []⟩)]
  diagRecords := [("diag_nosev", noSeverityObj)]
  diagGroupList := ["grp_a"]
  diagnosticList := ["diag_nosev"]

/-- An input whose single group declares a child name that resolves to
no known group. -/
def badChildInput : TblgenJson where
  groupRecords := [("grp_a", ⟨"grp_a", "A", ["nope"]⟩)]
  diagRecords := []
  diagGroupList := ["grp_a"]
  diagnosticList := []

/-- An input with one group and a diagnostic whose group name resolves to
no known group. -/
def dropInput : TblgenJson where
  groupRecords := [("grp_a", ⟨"grp_a", "A", []⟩)]
  diagRecords :=
    [("d_orphan", ⟨"d_orphan", "orphan message", some "ghost", some "SEV_Warning", none⟩)]
  diagGroupList := ["grp_a"]
  diagnosticList := ["d_orphan"]

/-- Referential symmetry of a catalog: every registered switch has a
nonempty `groups` list, every heap group is listed in the `groups` of the
switch registered under its own `switch_name`, and every index in a
switch's `groups` is a heap group carrying exactly that switch name. -/
def Catalog.refSymm (cat : Catalog) : Prop :=
  (∀ p ∈ cat.switchKeys, p.2 ≠ []) ∧
  (∀ i g, cat.store.get? i = some g →
    ∃ l, cat.switchKeys.lookup g.switch_name = some l ∧ i ∈ l) ∧
  (∀ p ∈ cat.switchKeys, ∀ i ∈ p.2,
    ∃ g, cat.store.get? i = some g ∧ g.switch_name = p.1)

/-- What the second and third construction passes preserve: they never
touch the two dicts, never add or remove heap cells, and never change a
group's `switch_name` or `child_names` (they only update `children`,
`has_parent` and `diagnostics`). -/
def Catalog.sameShape (cat cat' : Catalog) : Prop :=
  cat'.groupsDict = cat.groupsDict ∧
  cat'.switchKeys = cat.switchKeys ∧
  cat'.store.length = cat.store.length ∧
  (∀ j, (cat'.store.get? j).map (·.switch_name) =
    (cat.store.get? j).map (·.switch_name)) ∧
  (∀ j, (cat'.store.get? j).map (·.child_names) =
    (cat.store.get? j).map (·.child_names))

/-! ### Facts about the case-insensitive comparison (`__eq__`, `__lt__`,
`__hash__` of `ClangWarningSwitch`) -/

theorem char_toNat_inj {a b : Char} (h : a.toNat = b.toNat) : a = b :=
  Char.ext (UInt32.ext h)

theorem lexCmp_eq_iff : ∀ (a b : List Char), lexCmp a b = .eq ↔ a = b
  | [], [] => by simp [lexCmp]
  | [], _ :: _ => by simp [lexCmp]
  | _ :: _, [] => by simp [lexCmp]
  | c :: cs, d :: ds => by
      rcases Nat.lt_trichotomy c.toNat d.toNat with h | h | h
      · rw [lexCmp, if_pos h]
        constructor
        · intro hcon; cases hcon
        · intro he
          cases he
          exact absurd h (lt_irrefl _)
      · have hcd : c = d := char_toNat_inj h
        subst hcd
        rw [lexCmp, if_neg (lt_irrefl _), if_neg (lt_irrefl _)]
        rw [lexCmp_eq_iff cs ds]
        simp
      · rw [lexCmp, if_neg (by omega), if_pos h]
        constructor
        · intro hcon; cases hcon
        · intro he
          cases he
          exact absurd h (lt_irrefl _)

theorem lexCmp_swap : ∀ (a b : List Char), lexCmp b a = (lexCmp a b).swap
  | [], [] => rfl
  | [], _ :: _ => rfl
  | _ :: _, [] => rfl
  | c :: cs, d :: ds => by
      rcases Nat.lt_trichotomy c.toNat d.toNat with h | h | h
      · rw [lexCmp, if_neg (by omega), if_pos h, lexCmp, if_pos h]
        rfl
      · rw [lexCmp, if_neg (by omega), if_neg (by omega),
          lexCmp, if_neg (by omega), if_neg (by omega)]
        exact lexCmp_swap cs ds
      · rw [lexCmp, if_pos h, lexCmp, if_neg (by omega), if_pos h]
        rfl

theorem lexCmp_lt_trans : ∀ (a b c : List Char),
    lexCmp a b = .lt → lexCmp b c = .lt → lexCmp a c = .lt
  | [], [], _, h1, _ => by simp [lexCmp] at h1
  | [], _ :: _, [], _, h2 => by simp [lexCmp] at h2
  | [], _ :: _, _ :: _, _, _ => by simp [lexCmp]
  | _ :: _, [], _, h1, _ => by simp [lexCmp] at h1
  | _ :: _, _ :: _, [], _, h2 => by simp [lexCmp] at h2
  | x :: xs, y :: ys, z :: zs, h1, h2 => by
      rw [lexCmp] at h1 h2 ⊢
      rcases Nat.lt_trichotomy x.toNat y.toNat with hxy | hxy | hxy
      · rcases Nat.lt_trichotomy y.toNat z.toNat with hyz | hyz | hyz
        · rw [if_pos (by omega)]
        · rw [if_pos (by omega)]
        · rw [if_neg (by omega), if_pos hyz] at h2
          cases h2
      · rcases Nat.lt_trichotomy y.toNat z.toNat with hyz | hyz | hyz
        · rw [if_pos (by omega)]
        · rw [if_neg (by omega), if_neg (by omega)]
          rw [if_neg (by omega), if_neg (by omega)] at h1
          rw [if_neg (by omega), if_neg (by omega)] at h2
          exact lexCmp_lt_trans xs ys zs h1 h2
        · rw [if_neg (by omega), if_pos hyz] at h2
          cases h2
      · rw [if_neg (by omega), if_pos hxy] at h1
        cases h1

theorem lexLt_iff (a b : List Char) : lexLt a b = true ↔ lexCmp a b = .lt := by
  rw [lexLt]
  rcases h : lexCmp a b with _ | _ | _ <;> simp [h]

theorem lexLt_eq_false_iff (a b : List Char) :
    lexLt a b = false ↔ lexCmp a b ≠ .lt := by
  rw [lexLt]
  rcases h : lexCmp a b with _ | _ | _ <;> simp [h]

theorem lexLt_trans {a b c : List Char} (h1 : lexLt a b = true)
    (h2 : lexLt b c = true) : lexLt a c = true := by
  rw [lexLt_iff] at h1 h2 ⊢
  exact lexCmp_lt_trans a b c h1 h2

theorem lexLe_iff (a b : List Char) :
    lexLe a b = true ↔ lexCmp a b = .lt ∨ a = b := by
  rcases h : lexCmp a b with _ | _ | _
  · rw [lexLe, h]
    simp [h]
  · rw [lexLe, h]
    simp [(lexCmp_eq_iff a b).mp h]
  · rw [lexLe, h]
    simp only [h]
    constructor
    · intro hcon; cases hcon
    · rintro (hcon | he)
      · cases hcon
      · subst he
        rw [(lexCmp_eq_iff a a).mpr rfl] at h
        cases h

theorem lexLe_refl (a : List Char) : lexLe a a = true := by
  rw [lexLe_iff]
  right
  rfl

theorem lexLe_total (a b : List Char) : lexLe a b = true ∨ lexLe b a = true := by
  rw [lexLe_iff, lexLe_iff]
  cases h : lexCmp a b
  · left; left; rfl
  · right; right
    exact ((lexCmp_eq_iff a b).mp h).symm
  · right; left
    rw [lexCmp_swap a b, h]
    rfl

theorem lexLe_trans {a b c : List Char} (h1 : lexLe a b = true)
    (h2 : lexLe b c = true) : lexLe a c = true := by
  rw [lexLe_iff] at h1 h2 ⊢
  rcases h1 with h1 | h1
  · rcases h2 with h2 | h2
    · exact Or.inl (lexCmp_lt_trans a b c h1 h2)
    · subst h2; exact Or.inl h1
  · subst h1; exact h2

theorem lexLe_antisymm {a b : List Char} (h1 : lexLe a b = true)
    (h2 : lexLe b a = true) : a = b := by
  rw [lexLe_iff] at h1 h2
  rcases h1 with h1 | h1
  · rcases h2 with h2 | h2
    · have hcon := lexCmp_lt_trans a b a h1 h2
      rw [(lexCmp_eq_iff a a).mpr rfl] at hcon
      cases hcon
    · exact h2.symm
  · exact h1

theorem switchEq_iff (a b : String) :
    switchEq a b = true ↔ lowerChars a.data = lowerChars b.data := by
  simp [switchEq]

theorem switchEq_symm {a b : String} (h : switchEq a b = true) : switchEq b a = true := by
  rw [switchEq_iff] at h ⊢
  exact h.symm

theorem switchLe_total (a b : String) : switchLe a b = true ∨ switchLe b a = true :=
  lexLe_total _ _

theorem switchLe_trans {a b c : String} (h1 : switchLe a b = true)
    (h2 : switchLe b c = true) : switchLe a c = true :=
  lexLe_trans h1 h2

theorem switchLe_both_iff_eq {a b : String} (h1 : switchLe a b = true)
    (h2 : switchLe b a = true) : switchEq a b = true := by
  rw [switchEq_iff]
  exact lexLe_antisymm h1 h2

/-- C8: switch equality, ordering and hashing are all determined by the
case-insensitively lowered name: `__eq__` holds iff the lowered names
coincide, equal switches hash equal, `__lt__` is transitive, switches
that are equal up to case are incomparable under `__lt__` (they "compare
equal"), and the order is total (trichotomy). -/
theorem C8_switch_ordering (a b c : String) :
    (switchEq a b = true ↔ lowerChars a.data = lowerChars b.data) ∧
    (switchEq a b = true → switchHash a = switchHash b) ∧
    (switchLt a b = true → switchLt b c = true → switchLt a c = true) ∧
    (switchEq a b = true → switchLt a b = false ∧ switchLt b a = false) ∧
    (switchLt a b = true ∨ switchEq a b = true ∨ switchLt b a = true) := by
  refine ⟨switchEq_iff a b, ?_, ?_, ?_, ?_⟩
  · intro h
    rw [switchEq_iff] at h
    simp [switchHash, h]
  · exact fun h1 h2 => lexLt_trans h1 h2
  · intro h
    rw [switchEq_iff] at h
    constructor
    · rw [switchLt, lexLt_eq_false_iff, h, (lexCmp_eq_iff _ _).mpr rfl]
      intro hcon
      cases hcon
    · rw [switchLt, lexLt_eq_false_iff, h, (lexCmp_eq_iff _ _).mpr rfl]
      intro hcon
      cases hcon
  · rcases htri : lexCmp (lowerChars a.data) (lowerChars b.data) with _ | _ | _
    · left
      rw [switchLt, lexLt_iff]
      exact htri
    · right; left
      rw [switchEq_iff]
      exact (lexCmp_eq_iff _ _).mp htri
    · right; right
      rw [switchLt, lexLt_iff, lexCmp_swap (lowerChars a.data) (lowerChars b.data), htri]
      rfl

/-- Witness for C8 at concrete switches: transitivity applied at
`"A" < "b" < "C"` (mixed case), and case-insensitive equality of
`"Foo"`/`"fOO"` with its hash and incomparability consequences. -/
theorem C8_switch_ordering_witness :
    (switchLt "A" "b" = true ∧ switchLt "b" "C" = true ∧ switchLt "A" "C" = true) ∧
    (switchEq "Foo" "fOO" = true ∧ switchHash "Foo" = switchHash "fOO" ∧
      switchLt "Foo" "fOO" = false ∧ switchLt "fOO" "Foo" = false) :=
  ⟨⟨by decide, by decide,
    (C8_switch_ordering "A" "b" "C").2.2.1 (by decide) (by decide)⟩,
   ⟨by decide, (C8_switch_ordering "Foo" "fOO" "x").2.1 (by decide),
    ((C8_switch_ordering "Foo" "fOO" "x").2.2.2.1 (by decide)).1,
    ((C8_switch_ordering "Foo" "fOO" "x").2.2.2.1 (by decide)).2⟩⟩

/-! ### C2: a Diagnostic record with neither severity field -/

/-- C2 counterexample: on the concrete record `noSeverityObj`, which has
neither `DefaultSeverity` nor `DefaultMapping`, `ClangDiagnostic.__init__`
raises `KeyError` (and so does full catalog construction on an input
containing it); the record is not treated as enabled-by-default. -/
theorem C2_counterexample :
    ClangDiagnostic.ofObj noSeverityObj = .error "KeyError: DefaultMapping" ∧
    construct noSevInput = .error "KeyError: DefaultMapping" :=
  ⟨rfl, rfl⟩

/-- C2 amended: a Diagnostic record without `DefaultSeverity` must carry
`DefaultMapping`; on a record with neither field, construction raises a
`KeyError` instead of defaulting to enabled. -/
theorem C2_no_severity_raises (o : DiagObj) (h1 : o.defaultSeverity = none)
    (h2 : o.defaultMapping = none) :
    ClangDiagnostic.ofObj o = .error "KeyError: DefaultMapping" := by
  rw [ClangDiagnostic.ofObj, h1, h2]

/-- Witness for C2 at the concrete record. -/
theorem C2_no_severity_raises_witness :
    noSeverityObj.defaultSeverity = none ∧ noSeverityObj.defaultMapping = none ∧
    ClangDiagnostic.ofObj noSeverityObj = .error "KeyError: DefaultMapping" :=
  ⟨rfl, rfl, C2_no_severity_raises noSeverityObj rfl rfl⟩

/-! ### C10: a switch with no groups -/

theorem lookup_append_of_none {α : Type} {l : List (String × α)} {k : String}
    (h : l.lookup k = none) (v : α) : (l ++ [(k, v)]).lookup k = some v := by
  induction l with
  | nil => simp [List.lookup]
  | cons p rest ih =>
      obtain ⟨k', v'⟩ := p
      rw [List.lookup_cons] at h
      rw [List.cons_append, List.lookup_cons]
      cases hk : (k == k')
      · simp only [hk] at h ⊢
        exact ih h
      · simp only [hk] at h
        cases h

/-- C10: a `ClangWarningSwitch` freshly created by `get_switch` for a
name under which no group was registered has an empty `groups` list, is
a dummy, is neither enabled- nor partially-enabled-by-default, is
top-level, and has no child switches and no messages for either argument
value. -/
theorem C10_empty_switch (cat : Catalog) (name : String) (fuel : Nat) (b : Bool)
    (σ : List String → List String) (hσ : PermFn σ)
    (h : cat.switchKeys.lookup name = none) :
    (getSwitch cat name).2 = [] ∧
    switchGroups (getSwitch cat name).1 name = [] ∧
    swIsDummyF (getSwitch cat name).1 fuel name = some true ∧
    swIsEnabledF (getSwitch cat name).1 fuel name = some false ∧
    swPartiallyF (getSwitch cat name).1 fuel name = some false ∧
    swIsTopLevel (getSwitch cat name).1 name = true ∧
    getChildSwitchesF (getSwitch cat name).1 fuel name b = some [] ∧
    swMessages σ (getSwitch cat name).1 name b = [] := by
  have hpair : getSwitch cat name =
      ({ cat with switchKeys := cat.switchKeys ++ [(name, [])] }, []) := by
    rw [getSwitch, h]
  have hgr : switchGroups (getSwitch cat name).1 name = [] := by
    rw [hpair, switchGroups]
    rw [lookup_append_of_none h []]
    rfl
  refine ⟨by rw [hpair], hgr, ?_, ?_, ?_, ?_, ?_, ?_⟩
  · rw [swIsDummyF, hgr]
    rfl
  · rw [swIsEnabledF, swIsDummyF, hgr]
    rfl
  · rw [swPartiallyF, hgr]
    rfl
  · rw [swIsTopLevel, hgr]
    rfl
  · rw [getChildSwitchesF, hgr]
    cases b <;> rfl
  · rw [swMessages, hgr]
    exact List.Perm.eq_nil (hσ [])

/-- Witness for C10 on the round-trip catalog and a never-declared
name. -/
theorem C10_empty_switch_witness :
    PermFn id ∧ rtCat.switchKeys.lookup "missing" = none ∧
    ((getSwitch rtCat "missing").2 = [] ∧
      switchGroups (getSwitch rtCat "missing").1 "missing" = [] ∧
      swIsDummyF (getSwitch rtCat "missing").1 3 "missing" = some true ∧
      swIsEnabledF (getSwitch rtCat "missing").1 3 "missing" = some false ∧
      swPartiallyF (getSwitch rtCat "missing").1 3 "missing" = some false ∧
      swIsTopLevel (getSwitch rtCat "missing").1 "missing" = true ∧
      getChildSwitchesF (getSwitch rtCat "missing").1 3 "missing" true = some [] ∧
      swMessages id (getSwitch rtCat "missing").1 "missing" true = []) :=
  ⟨fun l => List.Perm.refl l, rfl,
   C10_empty_switch rtCat "missing" 3 true id (fun l => List.Perm.refl l) rfl⟩

/-! ### Semantics of the sequential loop combinators -/

theorem optAll_eq_true_iff (f : α → Option Bool) :
    ∀ l : List α, optAll f l = some true ↔ ∀ x ∈ l, f x = some true := by
  intro l
  induction l with
  | nil => simp [optAll]
  | cons x xs ih =>
      rw [optAll]
      rcases hx : f x with _ | b
      · simp [hx]
      · rcases b
        · simp [hx]
        · simp [hx, ih]

theorem optAll_eq_false (f : α → Option Bool) :
    ∀ l : List α, optAll f l = some false → ∃ x ∈ l, f x = some false := by
  intro l
  induction l with
  | nil => intro h; cases h
  | cons x xs ih =>
      rw [optAll]
      rcases hx : f x with _ | b
      · intro h; cases h
      · rcases b
        · intro _
          exact ⟨x, List.mem_cons_self x xs, hx⟩
        · intro h
          obtain ⟨y, hy, hfy⟩ := ih h
          exact ⟨y, List.mem_cons_of_mem x hy, hfy⟩

theorem optAll_isSome (f : α → Option Bool) :
    ∀ l : List α, (∀ x ∈ l, (f x).isSome) → (optAll f l).isSome := by
  intro l
  induction l with
  | nil => intro _; rfl
  | cons x xs ih =>
      intro h
      rw [optAll]
      rcases hx : f x with _ | b
      · have := h x (List.mem_cons_self x xs)
        rw [hx] at this
        cases this
      · rcases b
        · rfl
        · exact ih (fun y hy => h y (List.mem_cons_of_mem x hy))

theorem optAny_eq_false_iff (f : α → Option Bool) :
    ∀ l : List α, optAny f l = some false ↔ ∀ x ∈ l, f x = some false := by
  intro l
  induction l with
  | nil => simp [optAny]
  | cons x xs ih =>
      rw [optAny]
      rcases hx : f x with _ | b
      · simp [hx]
      · rcases b
        · simp [hx, ih]
        · simp [hx]

theorem optAny_eq_true (f : α → Option Bool) :
    ∀ l : List α, optAny f l = some true → ∃ x ∈ l, f x = some true := by
  intro l
  induction l with
  | nil => intro h; cases h
  | cons x xs ih =>
      rw [optAny]
      rcases hx : f x with _ | b
      · intro h; cases h
      · rcases b
        · intro h
          obtain ⟨y, hy, hfy⟩ := ih h
          exact ⟨y, List.mem_cons_of_mem x hy, hfy⟩
        · intro _
          exact ⟨x, List.mem_cons_self x xs, hx⟩

theorem optAny_isSome (f : α → Option Bool) :
    ∀ l : List α, (∀ x ∈ l, (f x).isSome) → (optAny f l).isSome := by
  intro l
  induction l with
  | nil => intro _; rfl
  | cons x xs ih =>
      intro h
      rw [optAny]
      rcases hx : f x with _ | b
      · have := h x (List.mem_cons_self x xs)
        rw [hx] at this
        cases this
      · rcases b
        · exact ih (fun y hy => h y (List.mem_cons_of_mem x hy))
        · rfl

theorem optAny_eq_true_of (f : α → Option Bool) :
    ∀ l : List α, (∀ x ∈ l, (f x).isSome) → (∃ x ∈ l, f x = some true) →
    optAny f l = some true := by
  intro l hsome hex
  rcases h : optAny f l with _ | b
  · have := optAny_isSome f l hsome
    rw [h] at this
    cases this
  · rcases b
    · obtain ⟨x, hx, hfx⟩ := hex
      rw [optAny_eq_false_iff] at h
      rw [h x hx] at hfx
      cases hfx
    · rfl

theorem optMap_mem (f : α → Option β) :
    ∀ {l : List α} {r : List β}, optMap f l = some r →
    ∀ y, y ∈ r ↔ ∃ x ∈ l, f x = some y := by
  intro l
  induction l with
  | nil =>
      intro r h y
      cases h
      simp
  | cons x xs ih =>
      intro r h y
      rw [optMap] at h
      rcases hx : f x with _ | z
      · rw [hx] at h; cases h
      · rw [hx] at h
        rcases hrest : optMap f xs with _ | zs
        · rw [hrest] at h; cases h
        · rw [hrest] at h
          cases h
          simp only [List.mem_cons]
          constructor
          · rintro (hyz | hyzs)
            · exact ⟨x, Or.inl rfl, by rw [hx, hyz]⟩
            · obtain ⟨w, hw, hfw⟩ := (ih hrest y).mp hyzs
              exact ⟨w, Or.inr hw, hfw⟩
          · rintro ⟨w, (hwx | hw), hfw⟩
            · subst hwx
              rw [hx] at hfw
              cases hfw
              exact Or.inl rfl
            · exact Or.inr ((ih hrest y).mpr ⟨w, hw, hfw⟩)

theorem optMap_isSome (f : α → Option β) :
    ∀ l : List α, (∀ x ∈ l, (f x).isSome) → (optMap f l).isSome := by
  intro l
  induction l with
  | nil => intro _; rfl
  | cons x xs ih =>
      intro h
      rw [optMap]
      rcases hx : f x with _ | z
      · have := h x (List.mem_cons_self x xs)
        rw [hx] at this
        cases this
      · have hrest := ih (fun y hy => h y (List.mem_cons_of_mem x hy))
        rcases hr : optMap f xs with _ | zs
        · rw [hr] at hrest
          cases hrest
        · rfl

theorem optFilter_mem (f : α → Option Bool) :
    ∀ {l : List α} {r : List α}, optFilter f l = some r →
    ∀ y, y ∈ r ↔ y ∈ l ∧ f y = some true := by
  intro l
  induction l with
  | nil =>
      intro r h y
      cases h
      simp
  | cons x xs ih =>
      intro r h y
      rw [optFilter] at h
      rcases hx : f x with _ | b
      · rw [hx] at h; cases h
      · rw [hx] at h
        rcases b
        · have hy := ih h y
          rw [hy]
          simp only [List.mem_cons]
          constructor
          · rintro ⟨hmem, hfy⟩
            exact ⟨Or.inr hmem, hfy⟩
          · rintro ⟨hyx | hmem, hfy⟩
            · subst hyx
              rw [hx] at hfy
              cases hfy
            · exact ⟨hmem, hfy⟩
        · rcases hrest : optFilter f xs with _ | zs
          · rw [hrest] at h; cases h
          · rw [hrest] at h
            cases h
            simp only [List.mem_cons]
            constructor
            · rintro (hyx | hmem)
              · exact ⟨Or.inl hyx, by rw [hyx]; exact hx⟩
              · obtain ⟨hm, hf⟩ := (ih hrest y).mp hmem
                exact ⟨Or.inr hm, hf⟩
            · rintro ⟨hyx | hmem, hfy⟩
              · exact Or.inl hyx
              · exact Or.inr ((ih hrest y).mpr ⟨hmem, hfy⟩)

/-! ### C1: no cycle guards; termination only on acyclic graphs -/

/-- On the constructed two-cycle catalog, none of the three recursive
derived-property computations bottoms out at any fuel: the Python
recursions do not terminate there. -/
theorem cyc_props_none : ∀ fuel,
    (isDummyF cycCat.store fuel 0 = none ∧ isDummyF cycCat.store fuel 1 = none) ∧
    (hasDisabledF cycCat.store fuel 0 = none ∧ hasDisabledF cycCat.store fuel 1 = none) ∧
    (hasEnabledF cycCat.store fuel 0 = none ∧ hasEnabledF cycCat.store fuel 1 = none) := by
  intro fuel
  induction fuel with
  | zero => exact ⟨⟨rfl, rfl⟩, ⟨rfl, rfl⟩, ⟨rfl, rfl⟩⟩
  | succ n ih =>
      obtain ⟨⟨hd0, hd1⟩, ⟨hx0, hx1⟩, ⟨he0, he1⟩⟩ := ih
      refine ⟨⟨?_, ?_⟩, ⟨?_, ?_⟩, ⟨?_, ?_⟩⟩
      · show optAll (fun c => isDummyF cycCat.store n c) [1] = none
        rw [optAll, hd1]
      · show optAll (fun c => isDummyF cycCat.store n c) [0] = none
        rw [optAll, hd0]
      · show optAny (fun c => hasDisabledF cycCat.store n c) [1] = none
        rw [optAny, hx1]
      · show optAny (fun c => hasDisabledF cycCat.store n c) [0] = none
        rw [optAny, hx0]
      · show optAny (fun c => hasEnabledF cycCat.store n c) [1] = none
        rw [optAny, he1]
      · show optAny (fun c => hasEnabledF cycCat.store n c) [0] = none
        rw [optAny, he0]

/-- On the two-cycle catalog whose groups do own diagnostics (so that the
comment computation terminates), the renderer's recursive descent
re-enters the switches `A` and `B` forever: `print_switch` bottoms out at
no fuel. -/
theorem cyc2_print_none : ∀ fuel level,
    printSwitchF cycCat2 id ⟨false, false, false⟩ false fuel "A" level = none ∧
    printSwitchF cycCat2 id ⟨false, false, false⟩ false fuel "B" level = none := by
  intro fuel
  induction fuel with
  | zero => exact fun _ => ⟨rfl, rfl⟩
  | succ n ih =>
      intro level
      constructor
      · rw [printSwitchF]
        simp only [show commentTextF cycCat2 (n + 1) "A" ⟨false, false, false⟩ false
            = some "" from rfl,
          show getChildSwitchesF cycCat2 (n + 1) "A" false = some ["B"] from rfl,
          show sortSwitches ["B"] = ["B"] from rfl, optMap, (ih (level + 1)).2]
      · rw [printSwitchF]
        simp only [show commentTextF cycCat2 (n + 1) "B" ⟨false, false, false⟩ false
            = some "" from rfl,
          show getChildSwitchesF cycCat2 (n + 1) "B" false = some ["A"] from rfl,
          show sortSwitches ["A"] = ["A"] from rfl, optMap, (ih (level + 1)).1]

/-- On the crossed-switch catalog, whose group graph is acyclic but
whose switch-level child graph is the cycle `A → B → A`, the renderer's
recursive descent never terminates: the comment computation succeeds
(both switches are dummies over acyclic group chains), but the descent
re-enters the same switches forever. -/
theorem cross_print_none : ∀ fuel level,
    printSwitchF crossCat id ⟨false, false, false⟩ false fuel "A" level = none ∧
    printSwitchF crossCat id ⟨false, false, false⟩ false fuel "B" level = none := by
  intro fuel
  induction fuel with
  | zero => exact fun _ => ⟨rfl, rfl⟩
  | succ n ih =>
      intro level
      cases n with
      | zero => exact ⟨rfl, rfl⟩
      | succ m =>
          constructor
          · rw [printSwitchF]
            simp only [show commentTextF crossCat (m + 1 + 1) "A" ⟨false, false, false⟩
                false = some " # DUMMY switch" from rfl,
              show getChildSwitchesF crossCat (m + 1 + 1) "A" false = some ["B"] from rfl,
              show sortSwitches ["B"] = ["B"] from rfl, optMap, (ih (level + 1)).2]
          · rw [printSwitchF]
            simp only [show commentTextF crossCat (m + 1 + 1) "B" ⟨false, false, false⟩
                false = some " # DUMMY switch" from rfl,
              show getChildSwitchesF crossCat (m + 1 + 1) "B" false = some ["A"] from rfl,
              show sortSwitches ["A"] = ["A"] from rfl, optMap, (ih (level + 1)).1]

theorem rankOKb_spec {st : List GroupState} {rank : Nat → Nat}
    (h : rankOKb st rank = true) {i : Nat} {g : GroupState}
    (hg : st.get? i = some g) {c : Nat} (hc : c ∈ g.children) :
    c < st.length ∧ rank c < rank i := by
  have hi : i < st.length := by
    by_contra hcon
    rw [List.get?_eq_none.mpr (le_of_not_lt hcon)] at hg
    cases hg
  rw [rankOKb, List.all_eq_true] at h
  have h2 := h i (List.mem_range.mpr hi)
  rw [hg, List.all_eq_true] at h2
  have h3 := h2 c (by simpa using hc)
  simp only [Bool.and_eq_true, decide_eq_true_eq] at h3
  exact h3

theorem isDummyF_terminates {st : List GroupState} {rank : Nat → Nat}
    (hrank : rankOKb st rank = true) :
    ∀ fuel i, i < st.length → rank i < fuel → (isDummyF st fuel i).isSome := by
  intro fuel
  induction fuel with
  | zero => intro i _ h; exact absurd h (Nat.not_lt_zero _)
  | succ n ih =>
      intro i hi hr
      rw [isDummyF]
      rcases hg : st.get? i with _ | g
      · rw [List.get?_eq_none] at hg
        omega
      · show (if g.diagnostics ≠ [] then some false
          else optAll (fun c => isDummyF st n c) g.children).isSome = true
        by_cases hd : g.diagnostics ≠ []
        · rw [if_pos hd]
          rfl
        · rw [if_neg hd]
          apply optAll_isSome
          intro c hc
          obtain ⟨hclen, hcr⟩ := rankOKb_spec hrank hg hc
          exact ih c hclen (by omega)

theorem hasDisabledF_terminates {st : List GroupState} {rank : Nat → Nat}
    (hrank : rankOKb st rank = true) :
    ∀ fuel i, i < st.length → rank i < fuel → (hasDisabledF st fuel i).isSome := by
  intro fuel
  induction fuel with
  | zero => intro i _ h; exact absurd h (Nat.not_lt_zero _)
  | succ n ih =>
      intro i hi hr
      rw [hasDisabledF]
      rcases hg : st.get? i with _ | g
      · rw [List.get?_eq_none] at hg
        omega
      · show (if g.diagnostics.any (fun d => !d.enabled_by_default) then some true
          else optAny (fun c => hasDisabledF st n c) g.children).isSome = true
        by_cases hd : g.diagnostics.any (fun d => !d.enabled_by_default)
        · rw [if_pos hd]
          rfl
        · rw [if_neg hd]
          apply optAny_isSome
          intro c hc
          obtain ⟨hclen, hcr⟩ := rankOKb_spec hrank hg hc
          exact ih c hclen (by omega)

theorem hasEnabledF_terminates {st : List GroupState} {rank : Nat → Nat}
    (hrank : rankOKb st rank = true) :
    ∀ fuel i, i < st.length → rank i < fuel → (hasEnabledF st fuel i).isSome := by
  intro fuel
  induction fuel with
  | zero => intro i _ h; exact absurd h (Nat.not_lt_zero _)
  | succ n ih =>
      intro i hi hr
      rw [hasEnabledF]
      rcases hg : st.get? i with _ | g
      · rw [List.get?_eq_none] at hg
        omega
      · show (if g.diagnostics.any (fun d => d.enabled_by_default) then some true
          else optAny (fun c => hasEnabledF st n c) g.children).isSome = true
        by_cases hd : g.diagnostics.any (fun d => d.enabled_by_default)
        · rw [if_pos hd]
          rfl
        · rw [if_neg hd]
          apply optAny_isSome
          intro c hc
          obtain ⟨hclen, hcr⟩ := rankOKb_spec hrank hg hc
          exact ih c hclen (by omega)

/-- C1 counterexample: the claim's termination guarantee is false on a
constructible catalog.  On the two-cycle catalog `cycCat` (produced by
`construct cycInput`) the `is_dummy` recursion never terminates, and on
`cycCat2` (produced by `construct cycInput2`) the renderer's recursive
descent never terminates: the code has no visited set and re-descends
into the same switch on a root-to-leaf path. -/
theorem C1_counterexample :
    ¬ IsDummyTerminates cycCat.store 0 ∧
    ¬ PrintTerminates cycCat2 ⟨false, false, false⟩ false "A" := by
  constructor
  · rintro ⟨fuel, b, hb⟩
    rw [(cyc_props_none fuel).1.1] at hb
    cases hb
  · rintro ⟨fuel, out, hout⟩
    rw [(cyc2_print_none fuel 0).1] at hout
    cases hout

/-- C1 amended: the recursive derived-property computations and the
renderer use natural recursion with no cycle guard.  The derived-property
computations terminate on every catalog whose group graph is acyclic
(certified by a rank function decreasing along child edges; any fuel
above the rank suffices), but on the constructible two-cycle catalog
they never terminate.  The renderer's recursive descent never terminates
on that cyclic catalog, and can even fail to terminate on a
constructible catalog whose group graph is acyclic, when the switch-level
child graph is cyclic (two acyclic group chains with crossed switch
names): the descent re-descends into the same switch forever. -/
theorem C1_no_cycle_guards :
    (∀ (st : List GroupState) (rank : Nat → Nat), rankOKb st rank = true →
      ∀ fuel i, i < st.length → rank i < fuel →
        (isDummyF st fuel i).isSome ∧ (hasDisabledF st fuel i).isSome ∧
          (hasEnabledF st fuel i).isSome) ∧
    construct cycInput = .ok cycCat ∧
    (∀ fuel, isDummyF cycCat.store fuel 0 = none ∧
      hasDisabledF cycCat.store fuel 0 = none ∧
      hasEnabledF cycCat.store fuel 0 = none) ∧
    construct cycInput2 = .ok cycCat2 ∧
    (∀ fuel level,
      printSwitchF cycCat2 id ⟨false, false, false⟩ false fuel "A" level = none) ∧
    construct crossInput = .ok crossCat ∧
    rankOKb crossCat.store (fun i => 1 - i % 2) = true ∧
    (∀ fuel level,
      printSwitchF crossCat id ⟨false, false, false⟩ false fuel "A" level = none) := by
  refine ⟨?_, rfl, ?_, rfl, ?_, rfl, by decide, ?_⟩
  · intro st rank hrank fuel i hi hr
    exact ⟨isDummyF_terminates hrank fuel i hi hr,
      hasDisabledF_terminates hrank fuel i hi hr,
      hasEnabledF_terminates hrank fuel i hi hr⟩
  · intro fuel
    exact ⟨(cyc_props_none fuel).1.1, (cyc_props_none fuel).2.1.1,
      (cyc_props_none fuel).2.2.1⟩
  · intro fuel level
    exact (cyc2_print_none fuel level).1
  · intro fuel level
    exact (cross_print_none fuel level).1

/-- Witness for C1's acyclic-termination part on the round-trip catalog,
with the identity rank function. -/
theorem C1_no_cycle_guards_witness :
    rankOKb rtCat.store (fun i => i) = true ∧ 0 < rtCat.store.length ∧ (0 : Nat) < 1 ∧
    ((isDummyF rtCat.store 1 0).isSome ∧ (hasDisabledF rtCat.store 1 0).isSome ∧
      (hasEnabledF rtCat.store 1 0).isSome) :=
  ⟨by decide, by decide, by decide,
   C1_no_cycle_guards.1 rtCat.store (fun i => i) (by decide) 1 0 (by decide) (by decide)⟩

/-! ### Soundness of the recursive derived properties with respect to
reachability in the group graph -/

theorem isDummyF_sound {st : List GroupState} :
    ∀ {fuel : Nat} {i : Nat} {b : Bool}, isDummyF st fuel i = some b →
    (b = true ↔ ∀ j, Reaches st i j → ∀ g, st.get? j = some g → g.diagnostics = []) := by
  intro fuel
  induction fuel with
  | zero => intro i b h; cases h
  | succ n ih =>
      intro i b h
      rw [isDummyF] at h
      rcases hg : st.get? i with _ | g
      · rw [hg] at h
        cases h
      · rw [hg] at h
        have h' : (if g.diagnostics ≠ [] then some false
            else optAll (fun c => isDummyF st n c) g.children) = some b := h
        by_cases hd : g.diagnostics ≠ []
        · rw [if_pos hd] at h'
          cases h'
          constructor
          · intro hcon; cases hcon
          · intro hall
            exact absurd (hall i Relation.ReflTransGen.refl g hg) hd
        · rw [if_neg hd] at h'
          push_neg at hd
          rcases b
          · -- optAll returned false: some child is non-dummy
            obtain ⟨c, hc, hfc⟩ := optAll_eq_false _ _ h'
            have hcprop := ih hfc
            constructor
            · intro hcon; cases hcon
            · intro hall
              have hnc : ¬ (∀ j, Reaches st c j → ∀ g', st.get? j = some g' →
                  g'.diagnostics = []) := by
                intro hp
                have := hcprop.mpr hp
                cases this
              push_neg at hnc
              obtain ⟨j, hreach, g', hg', hbad⟩ := hnc
              have : Reaches st i j :=
                Relation.ReflTransGen.head ⟨g, hg, hc⟩ hreach
              exact absurd (hall j this g' hg') hbad
          · -- optAll returned true: all children dummy
            rw [optAll_eq_true_iff] at h'
            constructor
            · intro _
              intro j hreach g' hg'
              rcases Relation.ReflTransGen.cases_head hreach with heq | ⟨m, hcm, hmj⟩
              · subst heq
                rw [hg] at hg'
                cases hg'
                exact hd
              · obtain ⟨gg, hgg, hm⟩ := hcm
                rw [hg] at hgg
                cases hgg
                exact (ih (h' m hm)).mp rfl j hmj g' hg'
            · intro _
              rfl

theorem hasEnabledF_sound {st : List GroupState} :
    ∀ {fuel : Nat} {i : Nat} {b : Bool}, hasEnabledF st fuel i = some b →
    (b = true ↔ ∃ j, Reaches st i j ∧ ∃ g, st.get? j = some g ∧
      ∃ d ∈ g.diagnostics, d.enabled_by_default = true) := by
  intro fuel
  induction fuel with
  | zero => intro i b h; cases h
  | succ n ih =>
      intro i b h
      rw [hasEnabledF] at h
      rcases hg : st.get? i with _ | g
      · rw [hg] at h
        cases h
      · rw [hg] at h
        have h' : (if g.diagnostics.any (fun d => d.enabled_by_default) then some true
            else optAny (fun c => hasEnabledF st n c) g.children) = some b := h
        by_cases hd : g.diagnostics.any (fun d => d.enabled_by_default)
        · rw [if_pos hd] at h'
          cases h'
          simp only [true_iff]
          obtain ⟨d, hdmem, hden⟩ := List.any_eq_true.mp hd
          exact ⟨i, Relation.ReflTransGen.refl, g, hg, d, hdmem, hden⟩
        · rw [if_neg hd] at h'
          rcases b
          · rw [optAny_eq_false_iff] at h'
            constructor
            · intro hcon; cases hcon
            · rintro ⟨j, hreach, g', hg', d, hdmem, hden⟩
              rcases Relation.ReflTransGen.cases_head hreach with heq | ⟨m, hcm, hmj⟩
              · subst heq
                rw [hg] at hg'
                cases hg'
                exact absurd (List.any_eq_true.mpr ⟨d, hdmem, hden⟩) hd
              · obtain ⟨gg, hgg, hm⟩ := hcm
                rw [hg] at hgg
                cases hgg
                have hfalse := (ih (h' m hm))
                have : ¬ (∃ j, Reaches st m j ∧ ∃ g, st.get? j = some g ∧
                    ∃ d ∈ g.diagnostics, d.enabled_by_default = true) := by
                  intro hp
                  have := hfalse.mpr hp
                  cases this
                exact absurd ⟨j, hmj, g', hg', d, hdmem, hden⟩ this
          · simp only [true_iff]
            obtain ⟨c, hc, hfc⟩ := optAny_eq_true _ _ h'
            obtain ⟨j, hreach, g', hg', d, hdmem, hden⟩ := (ih hfc).mp rfl
            exact ⟨j, Relation.ReflTransGen.head ⟨g, hg, hc⟩ hreach, g', hg', d, hdmem, hden⟩

theorem hasDisabledF_sound {st : List GroupState} :
    ∀ {fuel : Nat} {i : Nat} {b : Bool}, hasDisabledF st fuel i = some b →
    (b = true ↔ ∃ j, Reaches st i j ∧ ∃ g, st.get? j = some g ∧
      ∃ d ∈ g.diagnostics, d.enabled_by_default = false) := by
  intro fuel
  induction fuel with
  | zero => intro i b h; cases h
  | succ n ih =>
      intro i b h
      rw [hasDisabledF] at h
      rcases hg : st.get? i with _ | g
      · rw [hg] at h
        cases h
      · rw [hg] at h
        have h' : (if g.diagnostics.any (fun d => !d.enabled_by_default) then some true
            else optAny (fun c => hasDisabledF st n c) g.children) = some b := h
        by_cases hd : g.diagnostics.any (fun d => !d.enabled_by_default)
        · rw [if_pos hd] at h'
          cases h'
          simp only [true_iff]
          obtain ⟨d, hdmem, hden⟩ := List.any_eq_true.mp hd
          exact ⟨i, Relation.ReflTransGen.refl, g, hg, d, hdmem, by simpa using hden⟩
        · rw [if_neg hd] at h'
          rcases b
          · rw [optAny_eq_false_iff] at h'
            constructor
            · intro hcon; cases hcon
            · rintro ⟨j, hreach, g', hg', d, hdmem, hden⟩
              rcases Relation.ReflTransGen.cases_head hreach with heq | ⟨m, hcm, hmj⟩
              · subst heq
                rw [hg] at hg'
                cases hg'
                exact absurd (List.any_eq_true.mpr ⟨d, hdmem, by simpa using hden⟩) hd
              · obtain ⟨gg, hgg, hm⟩ := hcm
                rw [hg] at hgg
                cases hgg
                have hfalse := (ih (h' m hm))
                have : ¬ (∃ j, Reaches st m j ∧ ∃ g, st.get? j = some g ∧
                    ∃ d ∈ g.diagnostics, d.enabled_by_default = false) := by
                  intro hp
                  have := hfalse.mpr hp
                  cases this
                exact absurd ⟨j, hmj, g', hg', d, hdmem, hden⟩ this
          · simp only [true_iff]
            obtain ⟨c, hc, hfc⟩ := optAny_eq_true _ _ h'
            obtain ⟨j, hreach, g', hg', d, hdmem, hden⟩ := (ih hfc).mp rfl
            exact ⟨j, Relation.ReflTransGen.head ⟨g, hg, hc⟩ hreach, g', hg', d, hdmem, hden⟩

/-- C4: on a catalog whose group graph is acyclic (certified by a
decreasing rank) and with fuel above every owned group's rank,
`ClangWarningSwitch.is_dummy` terminates and returns `True` exactly when
no group reachable from the switch's owned groups (the transitive
closure) carries any diagnostic. -/
theorem C4_switch_dummy_iff_no_reachable_diagnostic (cat : Catalog)
    (rank : Nat → Nat) (fuel : Nat) (sw : String)
    (hrank : rankOKb cat.store rank = true)
    (hfuel : ∀ i ∈ switchGroups cat sw, i < cat.store.length ∧ rank i < fuel) :
    (swIsDummyF cat fuel sw).isSome ∧
    (swIsDummyF cat fuel sw = some true ↔
      ∀ i ∈ switchGroups cat sw, ∀ j, Reaches cat.store i j →
        ∀ g, cat.store.get? j = some g → g.diagnostics = []) := by
  have hsome : ∀ i ∈ switchGroups cat sw, (isDummyF cat.store fuel i).isSome :=
    fun i hi => isDummyF_terminates hrank fuel i (hfuel i hi).1 (hfuel i hi).2
  refine ⟨optAll_isSome _ _ hsome, ?_, ?_⟩
  · intro htrue i hi j hreach g hg
    rw [swIsDummyF, optAll_eq_true_iff] at htrue
    exact (isDummyF_sound (htrue i hi)).mp rfl j hreach g hg
  · intro hall
    rw [swIsDummyF, optAll_eq_true_iff]
    intro i hi
    rcases ho : isDummyF cat.store fuel i with _ | bi
    · have hcon := hsome i hi
      rw [ho] at hcon
      cases hcon
    · rcases bi
      · exact absurd ((isDummyF_sound ho).mpr
          (fun j hreach g hg => hall i hi j hreach g hg)) (by decide)
      · rfl

/-- Witness for C4 on the round-trip catalog at the switch `bar`
(groups `[1]`, reaching group `0`), with the identity rank. -/
theorem C4_switch_dummy_witness :
    rankOKb rtCat.store (fun i => i) = true ∧
    (∀ i ∈ switchGroups rtCat "bar", i < rtCat.store.length ∧ (fun i => i) i < 2) ∧
    ((swIsDummyF rtCat 2 "bar").isSome ∧
      (swIsDummyF rtCat 2 "bar" = some true ↔
        ∀ i ∈ switchGroups rtCat "bar", ∀ j, Reaches rtCat.store i j →
          ∀ g, rtCat.store.get? j = some g → g.diagnostics = [])) :=
  ⟨by decide, by decide,
   C4_switch_dummy_iff_no_reachable_diagnostic rtCat (fun i => i) 2 "bar"
     (by decide) (by decide)⟩

/-- The loop of `partially_enabled_by_default`: if it completes, every
owned group's `has_disabled_diagnostic`/`has_enabled_diagnostic` call
completed, and the result is the conjunction of the accumulated flags. -/
theorem swPartiallyF_go_spec (cat : Catalog) (fuel : Nat) :
    ∀ (l : List Nat) (en dis b : Bool),
      swPartiallyF.go cat fuel l en dis = some b →
      (∀ i ∈ l, (hasDisabledF cat.store fuel i).isSome ∧
        (hasEnabledF cat.store fuel i).isSome) ∧
      (b = true ↔
        (en = true ∨ ∃ i ∈ l, hasEnabledF cat.store fuel i = some true) ∧
        (dis = true ∨ ∃ i ∈ l, hasDisabledF cat.store fuel i = some true)) := by
  intro l
  induction l with
  | nil =>
      intro en dis b h
      cases h
      constructor
      · intro i hi
        cases hi
      · simp [Bool.and_eq_true]
  | cons i rest ih =>
      intro en dis b h
      rw [swPartiallyF.go] at h
      rcases hdis : hasDisabledF cat.store fuel i with _ | d
      · rw [hdis] at h
        cases h
      · rw [hdis] at h
        rcases hen : hasEnabledF cat.store fuel i with _ | e
        · rw [hen] at h
          cases h
        · rw [hen] at h
          have h' : swPartiallyF.go cat fuel rest (en || e) (dis || d) = some b := h
          obtain ⟨hsome, hiff⟩ := ih (en || e) (dis || d) b h'
          constructor
          · intro i' hi'
            rcases List.mem_cons.mp hi' with heq | hmem
            · subst heq
              exact ⟨by rw [hdis]; rfl, by rw [hen]; rfl⟩
            · exact hsome i' hmem
          · rw [hiff]
            constructor
            · rintro ⟨hen', hdis'⟩
              constructor
              · rcases hen' with hor | ⟨i', hi', hfi'⟩
                · rcases Bool.or_eq_true_iff.mp hor with he1 | he2
                  · exact Or.inl he1
                  · subst he2
                    exact Or.inr ⟨i, List.mem_cons_self i rest, hen⟩
                · exact Or.inr ⟨i', List.mem_cons_of_mem i hi', hfi'⟩
              · rcases hdis' with hor | ⟨i', hi', hfi'⟩
                · rcases Bool.or_eq_true_iff.mp hor with hd1 | hd2
                  · exact Or.inl hd1
                  · subst hd2
                    exact Or.inr ⟨i, List.mem_cons_self i rest, hdis⟩
                · exact Or.inr ⟨i', List.mem_cons_of_mem i hi', hfi'⟩
            · rintro ⟨hen', hdis'⟩
              constructor
              · rcases hen' with he1 | ⟨i', hi', hfi'⟩
                · exact Or.inl (Bool.or_eq_true_iff.mpr (Or.inl he1))
                · rcases List.mem_cons.mp hi' with heq | hmem
                  · subst heq
                    rw [hen] at hfi'
                    cases hfi'
                    exact Or.inl (Bool.or_eq_true_iff.mpr (Or.inr rfl))
                  · exact Or.inr ⟨i', hmem, hfi'⟩
              · rcases hdis' with hd1 | ⟨i', hi', hfi'⟩
                · exact Or.inl (Bool.or_eq_true_iff.mpr (Or.inl hd1))
                · rcases List.mem_cons.mp hi' with heq | hmem
                  · subst heq
                    rw [hdis] at hfi'
                    cases hfi'
                    exact Or.inl (Bool.or_eq_true_iff.mpr (Or.inr rfl))
                  · exact Or.inr ⟨i', hmem, hfi'⟩

/-- C7: if `partially_enabled_by_default()` returns `True` then some
owned group has `has_enabled_diagnostic()` true and some owned group has
`has_disabled_diagnostic()` true — concretely, an enabled-by-default
diagnostic and a disabled diagnostic are both reachable in the groups'
transitive closures — and `is_enabled_by_default()` returns `False`. -/
theorem C7_partially_enabled_implications (cat : Catalog) (fuel : Nat) (sw : String)
    (h : swPartiallyF cat fuel sw = some true) :
    (∃ i ∈ switchGroups cat sw, hasEnabledF cat.store fuel i = some true) ∧
    (∃ i ∈ switchGroups cat sw, hasDisabledF cat.store fuel i = some true) ∧
    (∃ i ∈ switchGroups cat sw, ∃ j, Reaches cat.store i j ∧
      ∃ g, cat.store.get? j = some g ∧
        ∃ d ∈ g.diagnostics, d.enabled_by_default = true) ∧
    (∃ i ∈ switchGroups cat sw, ∃ j, Reaches cat.store i j ∧
      ∃ g, cat.store.get? j = some g ∧
        ∃ d ∈ g.diagnostics, d.enabled_by_default = false) ∧
    swIsEnabledF cat fuel sw = some false := by
  have hgo : swPartiallyF.go cat fuel (switchGroups cat sw) false false = some true := h
  obtain ⟨hsome, hiff⟩ := swPartiallyF_go_spec cat fuel (switchGroups cat sw)
    false false true hgo
  obtain ⟨hen', hdis'⟩ := hiff.mp rfl
  have hen : ∃ i ∈ switchGroups cat sw, hasEnabledF cat.store fuel i = some true := by
    rcases hen' with hcon | hex
    · cases hcon
    · exact hex
  have hdis : ∃ i ∈ switchGroups cat sw, hasDisabledF cat.store fuel i = some true := by
    rcases hdis' with hcon | hex
    · cases hcon
    · exact hex
  refine ⟨hen, hdis, ?_, ?_, ?_⟩
  · obtain ⟨i, hi, hfi⟩ := hen
    exact ⟨i, hi, (hasEnabledF_sound hfi).mp rfl⟩
  · obtain ⟨i, hi, hfi⟩ := hdis
    obtain ⟨j, hreach, g, hg, d, hdm, hd⟩ := (hasDisabledF_sound hfi).mp rfl
    exact ⟨i, hi, j, hreach, g, hg, d, hdm, hd⟩
  · rw [swIsEnabledF]
    rw [optAny_eq_true_of _ _ (fun i hi => (hsome i hi).1) hdis]

/-- Witness for C7 on the round-trip catalog at the switch `bar`. -/
theorem C7_partially_enabled_witness :
    swPartiallyF rtCat 2 "bar" = some true ∧
    ((∃ i ∈ switchGroups rtCat "bar", hasEnabledF rtCat.store 2 i = some true) ∧
      (∃ i ∈ switchGroups rtCat "bar", hasDisabledF rtCat.store 2 i = some true) ∧
      (∃ i ∈ switchGroups rtCat "bar", ∃ j, Reaches rtCat.store i j ∧
        ∃ g, rtCat.store.get? j = some g ∧
          ∃ d ∈ g.diagnostics, d.enabled_by_default = true) ∧
      (∃ i ∈ switchGroups rtCat "bar", ∃ j, Reaches rtCat.store i j ∧
        ∃ g, rtCat.store.get? j = some g ∧
          ∃ d ∈ g.diagnostics, d.enabled_by_default = false) ∧
      swIsEnabledF rtCat 2 "bar" = some false) :=
  ⟨by decide, C7_partially_enabled_implications rtCat 2 "bar" (by decide)⟩

/-! ### C3: `get_child_switches` does not deduplicate -/

/-- C3 amended: `get_child_switches(enabled_only)` returns the switches
of the direct child groups of all owned groups, in order and without
deduplication; a switch occurs once per child-group occurrence.  Its
membership is exactly "switch of some direct child group of some owned
group", filtered by `is_enabled_by_default() or
partially_enabled_by_default()` when `enabled_only` is true. -/
theorem C3_child_switches_membership (cat : Catalog) (fuel : Nat) (sw : String) :
    (∀ l, getChildSwitchesF cat fuel sw false = some l →
      ∀ s, s ∈ l ↔ ∃ i ∈ switchGroups cat sw, ∃ g, cat.store.get? i = some g ∧
        ∃ c ∈ g.children, ∃ cg, cat.store.get? c = some cg ∧ cg.switch_name = s) ∧
    (∀ l l', getChildSwitchesF cat fuel sw false = some l →
      getChildSwitchesF cat fuel sw true = some l' →
      ∀ s, s ∈ l' ↔ s ∈ l ∧ swEnabledOrPartialF cat fuel s = some true) := by
  constructor
  · intro l h s
    rw [getChildSwitchesF] at h
    rcases hm : optMap (fun i => (cat.store.get? i).map (·.switch_name))
        ((switchGroups cat sw).flatMap
          (fun i => ((cat.store.get? i).map (·.children)).getD [])) with _ | cs
    · rw [hm] at h
      cases h
    · rw [hm] at h
      cases h
      rw [optMap_mem _ hm s]
      constructor
      · rintro ⟨c, hc, hfc⟩
        obtain ⟨i, hi, hci⟩ := List.mem_flatMap.mp hc
        obtain ⟨cg, hcg, hname⟩ := Option.map_eq_some'.mp hfc
        rcases hgi : cat.store.get? i with _ | g
        · rw [hgi] at hci
          cases hci
        · rw [hgi] at hci
          simp only [Option.map_some', Option.getD_some] at hci
          exact ⟨i, hi, g, hgi, c, hci, cg, hcg, hname⟩
      · rintro ⟨i, hi, g, hgi, c, hc, cg, hcg, hname⟩
        refine ⟨c, List.mem_flatMap.mpr ⟨i, hi, ?_⟩, ?_⟩
        · rw [hgi]
          simpa using hc
        · rw [hcg]
          simpa using hname
  · intro l l' h h' s
    rw [getChildSwitchesF] at h h'
    rcases hm : optMap (fun i => (cat.store.get? i).map (·.switch_name))
        ((switchGroups cat sw).flatMap
          (fun i => ((cat.store.get? i).map (·.children)).getD [])) with _ | cs
    · rw [hm] at h
      cases h
    · rw [hm] at h h'
      cases h
      exact optFilter_mem _ h' s

/-- C3 counterexample: on the catalog built from `dupInput`, the switch
`S` owns one group with two child groups that both map to the switch
`X`; `get_child_switches` returns `X` twice for either argument value,
refuting the claimed deduplication. -/
theorem C3_counterexample :
    construct dupInput = .ok dupCat ∧
    getChildSwitchesF dupCat 5 "S" false = some ["X", "X"] ∧
    getChildSwitchesF dupCat 5 "S" true = some ["X", "X"] :=
  ⟨rfl, by decide, by decide⟩

/-- Witness for C3's membership characterisation on the duplicate-switch
catalog. -/
theorem C3_child_switches_witness :
    getChildSwitchesF dupCat 5 "S" false = some ["X", "X"] ∧
    ("X" ∈ ["X", "X"] ↔ ∃ i ∈ switchGroups dupCat "S",
      ∃ g, dupCat.store.get? i = some g ∧
        ∃ c ∈ g.children, ∃ cg, dupCat.store.get? c = some cg ∧
          cg.switch_name = "X") :=
  ⟨by decide, (C3_child_switches_membership dupCat 5 "S").1 ["X", "X"] (by decide) "X"⟩

/-! ### Shape preservation by the second and third passes -/

theorem sameShape_refl (cat : Catalog) : cat.sameShape cat :=
  ⟨rfl, rfl, rfl, fun _ => rfl, fun _ => rfl⟩

theorem sameShape_trans {c1 c2 c3 : Catalog} (h1 : c1.sameShape c2)
    (h2 : c2.sameShape c3) : c1.sameShape c3 := by
  obtain ⟨ha1, hb1, hc1, hd1, he1⟩ := h1
  obtain ⟨ha2, hb2, hc2, hd2, he2⟩ := h2
  exact ⟨ha2.trans ha1, hb2.trans hb1, hc2.trans hc1,
    fun j => (hd2 j).trans (hd1 j), fun j => (he2 j).trans (he1 j)⟩

theorem storeModify_sameShape (cat : Catalog) (i : Nat) (f : GroupState → GroupState)
    (hsw : ∀ g, (f g).switch_name = g.switch_name)
    (hcn : ∀ g, (f g).child_names = g.child_names) :
    cat.sameShape (storeModify cat i f) := by
  rw [storeModify]
  rcases hg : cat.store.get? i with _ | g
  · exact sameShape_refl cat
  · refine ⟨rfl, rfl, by simp, ?_, ?_⟩
    · intro j
      rw [List.get?_set]
      by_cases hij : i = j
      · subst hij
        rw [if_pos rfl, hg]
        simp [hsw]
      · rw [if_neg hij]
    · intro j
      rw [List.get?_set]
      by_cases hij : i = j
      · subst hij
        rw [if_pos rfl, hg]
        simp [hcn]
      · rw [if_neg hij]

theorem foldl_storeModify_sameShape (f : GroupState → GroupState)
    (hsw : ∀ g, (f g).switch_name = g.switch_name)
    (hcn : ∀ g, (f g).child_names = g.child_names) :
    ∀ (l : List Nat) (cat : Catalog),
      cat.sameShape (l.foldl (fun c ci => storeModify c ci f) cat) := by
  intro l
  induction l with
  | nil => intro cat; exact sameShape_refl cat
  | cons i rest ih =>
      intro cat
      rw [List.foldl_cons]
      exact sameShape_trans (storeModify_sameShape cat i f hsw hcn)
        (ih (storeModify cat i f))

theorem storeModify_children_sameShape (cat : Catalog) (i : Nat) (cidxs : List Nat) :
    cat.sameShape (storeModify cat i (fun hh => { hh with children := cidxs })) :=
  storeModify_sameShape cat i _ (fun _ => rfl) (fun _ => rfl)

theorem foldl_hasParent_sameShape (l : List Nat) (cat : Catalog) :
    cat.sameShape (l.foldl (fun c ci => storeModify c ci
      (fun hh => { hh with has_parent := true })) cat) :=
  foldl_storeModify_sameShape
    (fun hh => { hh with has_parent := true }) (fun _ => rfl) (fun _ => rfl) l cat

theorem storeModify_diag_sameShape (cat : Catalog) (i : Nat) (d : ClangDiagnostic) :
    cat.sameShape (storeModify cat i
      (fun hh => { hh with diagnostics := hh.diagnostics ++ [d] })) :=
  storeModify_sameShape cat i _ (fun _ => rfl) (fun _ => rfl)

theorem pass2_sameShape :
    ∀ (entries : List (String × Nat)) (cat cat' : Catalog),
      pass2 entries cat = .ok cat' → cat.sameShape cat' := by
  intro entries
  induction entries with
  | nil =>
      intro cat cat' h
      cases h
      exact sameShape_refl _
  | cons p rest ih =>
      intro cat cat' h
      obtain ⟨gname, idx⟩ := p
      rw [pass2] at h
      split at h
      · cases h
      · split at h
        · cases h
        · have hrest := ih _ _ h
          refine sameShape_trans ?_ hrest
          exact sameShape_trans (storeModify_children_sameShape cat _ _)
            (foldl_hasParent_sameShape _ _)

theorem pass3_sameShape (records : List (String × DiagObj)) :
    ∀ (l : List String) (cat cat' : Catalog),
      pass3 records l cat = .ok cat' → cat.sameShape cat' := by
  intro l
  induction l with
  | nil =>
      intro cat cat' h
      cases h
      exact sameShape_refl _
  | cons dname rest ih =>
      intro cat cat' h
      rw [pass3] at h
      split at h
      · cases h
      · split at h
        · cases h
        · split at h
          · exact ih cat cat' h
          · split at h
            · exact ih cat cat' h
            · have hrest := ih _ cat' h
              refine sameShape_trans ?_ hrest
              exact storeModify_diag_sameShape cat _ _

theorem storeModify_groupsDict (cat : Catalog) (i : Nat) (f : GroupState → GroupState) :
    (storeModify cat i f).groupsDict = cat.groupsDict := by
  rw [storeModify]
  rcases cat.store.get? i <;> rfl

theorem assocSet_lookup_ne {α : Type} (d : List (String × α)) (k n : String) (v : α)
    (hne : n ≠ k) : (assocSet d k v).lookup n = d.lookup n := by
  induction d with
  | nil =>
      rw [assocSet]
      simp [List.lookup, List.lookup_cons, beq_eq_false_iff_ne.mpr hne]
  | cons p rest ih =>
      obtain ⟨k', v'⟩ := p
      rw [assocSet]
      by_cases hk : k' = k
      · rw [if_pos hk]
        rw [List.lookup_cons, List.lookup_cons]
        cases hnk : (n == k')
        · rfl
        · have heq : n = k' := by simpa using hnk
          exact absurd (heq.trans hk) hne
      · rw [if_neg hk]
        rw [List.lookup_cons, List.lookup_cons]
        cases hnk : (n == k')
        · exact ih
        · rfl

theorem pass1_lookup_not_mem (records : List (String × GroupObj)) (n : String) :
    ∀ (l : List String) (cat cat' : Catalog), n ∉ l →
      pass1 records l cat = .ok cat' →
      cat'.groupsDict.lookup n = cat.groupsDict.lookup n := by
  intro l
  induction l with
  | nil =>
      intro cat cat' _ h
      cases h
      rfl
  | cons gname rest ih =>
      intro cat cat' hn h
      rw [pass1] at h
      split at h
      · cases h
      · have hrec := ih _ cat' (fun hc => hn (List.mem_cons_of_mem _ hc)) h
        rw [hrec]
        exact assocSet_lookup_ne _ _ _ _
          (fun he => hn (he ▸ List.mem_cons_self _ _))

theorem resolveNames_ok_lookup (dict : List (String × Nat)) :
    ∀ (names : List String) (is' : List Nat), resolveNames dict names = .ok is' →
      ∀ c ∈ names, (dict.lookup c).isSome := by
  intro names
  induction names with
  | nil =>
      intro is' _ c hc
      cases hc
  | cons nm rest ih =>
      intro is' h c hc
      rw [resolveNames] at h
      split at h
      · cases h
      · rename_i i hlook
        split at h
        · cases h
        · rename_i js hres
          rcases List.mem_cons.mp hc with heq | hmem
          · subst heq
            rw [hlook]
            rfl
          · exact ih js hres c hmem

theorem pass2_ok_resolvable :
    ∀ (entries : List (String × Nat)) (cat cat' : Catalog),
      pass2 entries cat = .ok cat' →
      ∀ p ∈ entries, ∀ g, cat.store.get? p.2 = some g →
        ∀ c ∈ g.child_names, (cat.groupsDict.lookup c).isSome := by
  intro entries
  induction entries with
  | nil =>
      intro cat cat' _ p hp
      cases hp
  | cons q rest ih =>
      intro cat cat' h p hp g hg c hc
      obtain ⟨qname, qidx⟩ := q
      rw [pass2] at h
      split at h
      · cases h
      · rename_i g0 hg0
        split at h
        · cases h
        · rename_i cidxs hres
          rcases List.mem_cons.mp hp with heq | hmem
          · subst heq
            rw [hg] at hg0
            cases hg0
            exact resolveNames_ok_lookup _ _ _ hres c hc
          · have hshape : cat.sameShape
                (List.foldl (fun c ci => storeModify c ci
                  (fun hh => { hh with has_parent := true }))
                  (storeModify cat qidx (fun hh => { hh with children := cidxs }))
                  cidxs) :=
              sameShape_trans (storeModify_children_sameShape cat qidx cidxs)
                (foldl_hasParent_sameShape cidxs _)
            obtain ⟨hdict, _, _, _, hchild⟩ := hshape
            have hx := hchild p.2
            rw [hg] at hx
            rcases hgx : (List.foldl (fun c ci => storeModify c ci
                (fun hh => { hh with has_parent := true }))
                (storeModify cat qidx (fun hh => { hh with children := cidxs }))
                cidxs).store.get? p.2 with _ | g'
            · rw [hgx] at hx
              cases hx
            · rw [hgx] at hx
              simp only [Option.map_some'] at hx
              have hcn := Option.some.inj hx
              have hlook := ih _ cat' h p hmem g' hgx c (by rw [hcn]; exact hc)
              rw [hdict] at hlook
              exact hlook

theorem pass3_drop (records : List (String × DiagObj)) (dname : String)
    (obj : DiagObj) (d : ClangDiagnostic) (gn : String)
    (hrec : records.lookup dname = some obj)
    (hof : ClangDiagnostic.ofObj obj = .ok d)
    (hgn : d.group_name = some gn) :
    ∀ (l1 l2 : List String) (cat : Catalog),
      cat.groupsDict.lookup gn = none →
      pass3 records (l1 ++ dname :: l2) cat = pass3 records (l1 ++ l2) cat := by
  intro l1
  induction l1 with
  | nil =>
      intro l2 cat hnone
      rw [List.nil_append, List.nil_append]
      conv_lhs => rw [pass3]
      simp only [hrec, hof, hgn, hnone]
  | cons x xs ih =>
      intro l2 cat hnone
      rw [List.cons_append, List.cons_append]
      rcases hx : records.lookup x with _ | obj'
      · simp only [pass3, hx]
      · rcases hof' : ClangDiagnostic.ofObj obj' with e' | d'
        · simp only [pass3, hx, hof']
        · rcases hgn' : d'.group_name with _ | gn'
          · simp only [pass3, hx, hof', hgn']
            exact ih l2 cat hnone
          · rcases hlk : cat.groupsDict.lookup gn' with _ | idx
            · simp only [pass3, hx, hof', hgn', hlk]
              exact ih l2 cat hnone
            · simp only [pass3, hx, hof', hgn', hlk]
              exact ih l2 _ (by rw [storeModify_groupsDict]; exact hnone)

theorem C6_child_fatal_diagnostic_silent :
    (∀ (j : TblgenJson) (cat1 : Catalog),
      pass1 j.groupRecords j.diagGroupList ⟨[], [], []⟩ = .ok cat1 →
      (∃ p ∈ cat1.groupsDict, ∃ g, cat1.store.get? p.2 = some g ∧
        ∃ c ∈ g.child_names, cat1.groupsDict.lookup c = none) →
      (construct j).isOk = false) ∧
    (∀ (j : TblgenJson) (l1 l2 : List String) (dname : String) (obj : DiagObj)
      (d : ClangDiagnostic) (gn : String),
      j.diagnosticList = l1 ++ dname :: l2 →
      j.diagRecords.lookup dname = some obj →
      ClangDiagnostic.ofObj obj = .ok d →
      d.group_name = some gn →
      gn ∉ j.diagGroupList →
      construct j = construct { j with diagnosticList := l1 ++ l2 }) := by
  constructor
  · rintro j cat1 hp1 ⟨p, hp, g, hg, c, hc, hnone⟩
    rw [construct, hp1]
    rcases hp2 : pass2 cat1.groupsDict cat1 with e | cat2
    · simp only [hp2]
      rfl
    · exfalso
      have hres := pass2_ok_resolvable cat1.groupsDict cat1 cat2 hp2 p hp g hg c hc
      rw [hnone] at hres
      cases hres
  · intro j l1 l2 dname obj d gn hdl hrec hof hgn hnotin
    obtain ⟨grs, drs, gls, dls⟩ := j
    dsimp only at hdl hrec hgn hnotin
    subst hdl
    rcases hp1 : pass1 grs gls ⟨[], [], []⟩ with e | cat1
    · simp only [construct, hp1]
    · simp only [construct, hp1]
      rcases hp2 : pass2 cat1.groupsDict cat1 with e2 | cat2
      · simp only [hp2]
      · simp only [hp2]
        have h1 : cat1.groupsDict.lookup gn = none := by
          have hpres := pass1_lookup_not_mem grs gn gls ⟨[], [], []⟩ cat1 hnotin hp1
          rw [hpres]
          rfl
        have h2 : cat2.groupsDict = cat1.groupsDict := (pass2_sameShape _ _ _ hp2).1
        exact pass3_drop drs dname obj d gn hrec hof hgn l1 l2 cat2
          (by rw [h2]; exact h1)

theorem C6_witness :
    (pass1 badChildInput.groupRecords badChildInput.diagGroupList ⟨[], [], []⟩ =
        .ok ⟨[⟨"grp_a", "A", ["nope"], [], false, []⟩], [("grp_a", 0)], [("A", [0])]⟩ ∧
      (construct badChildInput).isOk = false) ∧
    (dropInput.diagnosticList = [] ++ "d_orphan" :: [] ∧
      construct dropInput = construct { dropInput with diagnosticList := [] ++ [] }) :=
  ⟨⟨rfl,
    C6_child_fatal_diagnostic_silent.1 badChildInput
      ⟨[⟨"grp_a", "A", ["nope"], [], false, []⟩], [("grp_a", 0)], [("A", [0])]⟩
      rfl (by decide)⟩,
   ⟨rfl,
    C6_child_fatal_diagnostic_silent.2 dropInput [] []
      "d_orphan" ⟨"d_orphan", "orphan message", some "ghost", some "SEV_Warning", none⟩
      ⟨"d_orphan", "orphan message", some "ghost", true⟩ "ghost"
      rfl rfl rfl rfl (by decide)⟩⟩

/-! ### C9: referential symmetry of construction -/

theorem switchAppend_lookup_eq (keys : List (String × List Nat)) (k : String)
    (idx : Nat) :
    (switchAppend keys k idx).lookup k = some (((keys.lookup k).getD []) ++ [idx]) := by
  induction keys with
  | nil =>
      rw [switchAppend]
      simp [List.lookup]
  | cons p rest ih =>
      obtain ⟨k', l⟩ := p
      rw [switchAppend]
      by_cases hk : k' = k
      · subst hk
        rw [if_pos rfl, List.lookup_cons, List.lookup_cons]
        simp
      · have hne : (k == k') = false := beq_eq_false_iff_ne.mpr (Ne.symm hk)
        rw [if_neg hk, List.lookup_cons, List.lookup_cons]
        simp only [hne]
        exact ih

theorem switchAppend_mem (keys : List (String × List Nat)) (k : String) (idx : Nat) :
    ∀ p ∈ switchAppend keys k idx,
      p ∈ keys ∨ (∃ l, (k, l) ∈ keys ∧ p = (k, l ++ [idx])) ∨ p = (k, [idx]) := by
  induction keys with
  | nil =>
      intro p hp
      rw [switchAppend] at hp
      rcases List.mem_singleton.mp hp with rfl
      exact Or.inr (Or.inr rfl)
  | cons q rest ih =>
      intro p hp
      obtain ⟨k', l⟩ := q
      rw [switchAppend] at hp
      by_cases hk : k' = k
      · subst hk
        rw [if_pos rfl] at hp
        rcases List.mem_cons.mp hp with rfl | hmem
        · exact Or.inr (Or.inl ⟨l, List.mem_cons_self _ _, rfl⟩)
        · exact Or.inl (List.mem_cons_of_mem _ hmem)
      · rw [if_neg hk] at hp
        rcases List.mem_cons.mp hp with rfl | hmem
        · exact Or.inl (List.mem_cons_self _ _)
        · rcases ih p hmem with h1 | h2 | h3
          · exact Or.inl (List.mem_cons_of_mem _ h1)
          · obtain ⟨l', hl', rfl⟩ := h2
            exact Or.inr (Or.inl ⟨l', List.mem_cons_of_mem _ hl', rfl⟩)
          · exact Or.inr (Or.inr h3)

theorem get?_concat_cases {l : List GroupState} {gnew h : GroupState} {i : Nat}
    (hget : (l ++ [gnew]).get? i = some h) :
    l.get? i = some h ∨ (i = l.length ∧ h = gnew) := by
  by_cases hi : i < l.length
  · left
    rw [← List.get?_append hi]
    exact hget
  · right
    by_cases hi2 : i = l.length
    · subst hi2
      rw [List.get?_concat_length] at hget
      exact ⟨rfl, (Option.some.inj hget).symm⟩
    · exfalso
      have hlen : (l ++ [gnew]).length ≤ i := by
        rw [List.length_append]
        simp only [List.length_singleton]
        omega
      rw [List.get?_eq_none.mpr hlen] at hget
      cases hget

theorem switchAppend_nonempty {keys : List (String × List Nat)} {k : String}
    {idx : Nat} (h : ∀ p ∈ keys, p.2 ≠ []) :
    ∀ p ∈ switchAppend keys k idx, p.2 ≠ [] := by
  intro p hp
  rcases switchAppend_mem keys k idx p hp with h1 | h2 | h3
  · exact h p h1
  · obtain ⟨l, _, rfl⟩ := h2
    simp
  · subst h3
    simp

theorem step_refSymm {cat : Catalog} (gnew : GroupState) (dict : List (String × Nat))
    (hsym : cat.refSymm) :
    Catalog.refSymm ⟨cat.store ++ [gnew], dict,
      switchAppend cat.switchKeys gnew.switch_name cat.store.length⟩ := by
  obtain ⟨h1, h2, h3⟩ := hsym
  refine ⟨switchAppend_nonempty h1, ?_, ?_⟩
  · intro i g hg
    rcases get?_concat_cases hg with hold | ⟨rfl, rfl⟩
    · by_cases hsw : g.switch_name = gnew.switch_name
      · rw [hsw, switchAppend_lookup_eq]
        obtain ⟨l, hl, hil⟩ := h2 i g hold
        rw [hsw] at hl
        rw [hl]
        exact ⟨_, rfl, List.mem_append_left _ hil⟩
      · obtain ⟨l, hl, hil⟩ := h2 i g hold
        refine ⟨l, ?_, hil⟩
        have : (switchAppend cat.switchKeys gnew.switch_name cat.store.length).lookup
            g.switch_name = cat.switchKeys.lookup g.switch_name := by
          clear hl
          generalize cat.switchKeys = keys
          induction keys with
          | nil =>
              rw [switchAppend]
              simp [List.lookup, List.lookup_cons, beq_eq_false_iff_ne.mpr hsw]
          | cons q rest ih =>
              obtain ⟨k', l'⟩ := q
              rw [switchAppend]
              by_cases hk : k' = gnew.switch_name
              · subst hk
                rw [if_pos rfl, List.lookup_cons, List.lookup_cons]
                simp only [beq_eq_false_iff_ne.mpr hsw]
              · rw [if_neg hk, List.lookup_cons, List.lookup_cons]
                cases hnk : (g.switch_name == k')
                · exact ih
                · rfl
        rw [this]
        exact hl
    · rw [switchAppend_lookup_eq]
      refine ⟨_, rfl, List.mem_append_right _ ?_⟩
      simp
  · intro p hp i hi
    rcases switchAppend_mem _ _ _ p hp with hmem | hmid | hnew
    · obtain ⟨g, hg, hname⟩ := h3 p hmem i hi
      refine ⟨g, ?_, hname⟩
      have hilen : i < cat.store.length := by
        by_contra hcon
        rw [List.get?_eq_none.mpr (le_of_not_lt hcon)] at hg
        cases hg
      rw [List.get?_append hilen]
      exact hg
    · obtain ⟨l, hl, rfl⟩ := hmid
      rcases List.mem_append.mp hi with hil | hidx
      · obtain ⟨g, hg, hname⟩ := h3 (gnew.switch_name, l) hl i hil
        refine ⟨g, ?_, hname⟩
        have hilen : i < cat.store.length := by
          by_contra hcon
          rw [List.get?_eq_none.mpr (le_of_not_lt hcon)] at hg
          cases hg
        rw [List.get?_append hilen]
        exact hg
      · rcases List.mem_singleton.mp hidx with rfl
        exact ⟨gnew, List.get?_concat_length _ _, rfl⟩
    · subst hnew
      rcases List.mem_singleton.mp hi with rfl
      exact ⟨gnew, List.get?_concat_length _ _, rfl⟩

theorem refSymm_empty : Catalog.refSymm ⟨[], [], []⟩ := by
  refine ⟨?_, ?_, ?_⟩
  · intro p hp
    cases hp
  · intro i g hg
    cases i <;> cases hg
  · intro p hp
    cases hp

theorem pass1_refSymm (records : List (String × GroupObj)) :
    ∀ (l : List String) (cat cat' : Catalog),
      pass1 records l cat = .ok cat' → cat.refSymm → cat'.refSymm := by
  intro l
  induction l with
  | nil =>
      intro cat cat' h hsym
      cases h
      exact hsym
  | cons gname rest ih =>
      intro cat cat' h hsym
      rw [pass1] at h
      split at h
      · cases h
      · exact ih _ cat' h (step_refSymm _ _ hsym)

theorem refSymm_transfer {cat cat' : Catalog} (hsh : cat.sameShape cat')
    (hsym : cat.refSymm) : cat'.refSymm := by
  obtain ⟨hdict, hkeys, hlen, hsw, _⟩ := hsh
  obtain ⟨h1, h2, h3⟩ := hsym
  refine ⟨?_, ?_, ?_⟩
  · rw [hkeys]
    exact h1
  · intro i g hg
    have hx := hsw i
    rw [hg] at hx
    rcases hold : cat.store.get? i with _ | g0
    · rw [hold] at hx
      cases hx
    · rw [hold] at hx
      simp only [Option.map_some'] at hx
      have hname := Option.some.inj hx
      obtain ⟨l, hl, hil⟩ := h2 i g0 hold
      rw [hkeys, hname]
      exact ⟨l, hl, hil⟩
  · intro p hp i hi
    rw [hkeys] at hp
    obtain ⟨g0, hg0, hname⟩ := h3 p hp i hi
    have hx := hsw i
    rw [hg0] at hx
    rcases hnew : cat'.store.get? i with _ | g
    · rw [hnew] at hx
      cases hx
    · rw [hnew] at hx
      simp only [Option.map_some'] at hx
      exact ⟨g, rfl, (Option.some.inj hx).trans hname⟩

/-- C9: after catalog construction succeeds, every registered switch has
at least one group, every heap group is contained in the `groups` of the
switch registered under its `switch_name` (the group's `switch`
back-reference, which is set in the constructor and hence never null),
and conversely every group listed under a switch carries exactly that
switch name. -/
theorem C9_referential_symmetry (j : TblgenJson) (cat : Catalog)
    (h : construct j = .ok cat) :
    (∀ p ∈ cat.switchKeys, p.2 ≠ []) ∧
    (∀ i g, cat.store.get? i = some g →
      ∃ l, cat.switchKeys.lookup g.switch_name = some l ∧ i ∈ l) ∧
    (∀ p ∈ cat.switchKeys, ∀ i ∈ p.2,
      ∃ g, cat.store.get? i = some g ∧ g.switch_name = p.1) := by
  rw [construct] at h
  split at h
  · cases h
  · rename_i cat1 hp1
    split at h
    · cases h
    · rename_i cat2 hp2
      have hsym1 : cat1.refSymm :=
        pass1_refSymm _ _ _ cat1 hp1 refSymm_empty
      have hsym2 := refSymm_transfer (pass2_sameShape _ _ _ hp2) hsym1
      exact refSymm_transfer (pass3_sameShape _ _ _ _ h) hsym2

/-- Witness for C9 on the round-trip catalog. -/
theorem C9_referential_symmetry_witness :
    construct rtInput = .ok rtCat ∧
    ((∀ p ∈ rtCat.switchKeys, p.2 ≠ []) ∧
      (∀ i g, rtCat.store.get? i = some g →
        ∃ l, rtCat.switchKeys.lookup g.switch_name = some l ∧ i ∈ l) ∧
      (∀ p ∈ rtCat.switchKeys, ∀ i ∈ p.2,
        ∃ g, rtCat.store.get? i = some g ∧ g.switch_name = p.1)) :=
  ⟨rfl, C9_referential_symmetry rtInput rtCat rfl⟩

/-! ### C5: determinism of the rendered output under set-enumeration
nondeterminism -/

theorem string_data_inj {a b : String} (h : a.data = b.data) : a = b := by
  cases a
  cases b
  cases h
  rfl

theorem sorted_perm_eq {α : Type} {le : α → α → Bool} :
    ∀ {l1 l2 : List α}, l1.Perm l2 →
      l1.Pairwise (fun a b => le a b = true) →
      l2.Pairwise (fun a b => le a b = true) →
      (∀ a ∈ l1, ∀ b ∈ l1, le a b = true → le b a = true → a = b) →
      l1 = l2 := by
  intro l1
  induction l1 with
  | nil =>
      intro l2 hperm _ _ _
      exact hperm.nil_eq
  | cons a t1 ih =>
      intro l2 hperm hs1 hs2 hanti
      cases l2 with
      | nil =>
          have := hperm.eq_nil
          cases this
      | cons b t2 =>
          by_cases hab : a = b
          · subst hab
            have hperm' := hperm.cons_inv
            have ht : t1 = t2 :=
              ih hperm' (List.pairwise_cons.mp hs1).2 (List.pairwise_cons.mp hs2).2
                (fun x hx y hy => hanti x (List.mem_cons_of_mem a hx)
                  y (List.mem_cons_of_mem a hy))
            rw [ht]
          · have ha2 : a ∈ b :: t2 := hperm.mem_iff.mp (List.mem_cons_self a t1)
            have hb1 : b ∈ a :: t1 := hperm.mem_iff.mpr (List.mem_cons_self b t2)
            have hat2 : a ∈ t2 := by
              rcases List.mem_cons.mp ha2 with heq | hm
              · exact absurd heq hab
              · exact hm
            have hbt1 : b ∈ t1 := by
              rcases List.mem_cons.mp hb1 with heq | hm
              · exact absurd heq.symm hab
              · exact hm
            have hle1 : le a b = true := (List.pairwise_cons.mp hs1).1 b hbt1
            have hle2 : le b a = true := (List.pairwise_cons.mp hs2).1 a hat2
            exact absurd (hanti a (List.mem_cons_self a t1)
              b (List.mem_cons_of_mem a hbt1) hle1 hle2) hab

theorem insertionSort_perm_eq {α : Type} {le : α → α → Bool}
    (htrans : ∀ a b c, le a b = true → le b c = true → le a c = true)
    (htotal : ∀ a b, le a b = true ∨ le b a = true)
    {l1 l2 : List α} (hperm : l1.Perm l2)
    (hanti : ∀ a ∈ l1, ∀ b ∈ l1, le a b = true → le b a = true → a = b) :
    List.insertionSort (fun a b => le a b = true) l1 =
      List.insertionSort (fun a b => le a b = true) l2 := by
  haveI hto : IsTotal α (fun a b => le a b = true) := ⟨htotal⟩
  haveI htr : IsTrans α (fun a b => le a b = true) := ⟨htrans⟩
  have hp1 := List.perm_insertionSort (fun a b => le a b = true) l1
  have hp2 := List.perm_insertionSort (fun a b => le a b = true) l2
  apply sorted_perm_eq ((hp1.trans hperm).trans hp2.symm)
  · exact List.sorted_insertionSort _ l1
  · exact List.sorted_insertionSort _ l2
  · intro a ha b hb
    exact hanti a (hp1.mem_iff.mp ha) b (hp1.mem_iff.mp hb)

theorem sortStrings_perm_eq {l1 l2 : List String} (hperm : l1.Perm l2) :
    sortStrings l1 = sortStrings l2 := by
  rw [sortStrings, sortStrings]
  exact @insertionSort_perm_eq String (fun a b => lexLe a.data b.data)
    (fun a b c hab hbc => lexLe_trans hab hbc)
    (fun a b => lexLe_total a.data b.data)
    l1 l2 hperm
    (fun a _ b _ hab hba => string_data_inj (lexLe_antisymm hab hba))

theorem sortStrings_swMessages_eq {σ1 σ2 : List String → List String}
    (h1 : PermFn σ1) (h2 : PermFn σ2) (cat : Catalog) (sw : String) (e : Bool) :
    sortStrings (swMessages σ1 cat sw e) = sortStrings (swMessages σ2 cat sw e) := by
  apply sortStrings_perm_eq
  exact (h1 _).trans (h2 _).symm

theorem sortSwitches_perm_eq {l1 l2 : List String} (hperm : l1.Perm l2)
    (hanti : ∀ a ∈ l1, ∀ b ∈ l1, switchEq a b = true → a = b) :
    sortSwitches l1 = sortSwitches l2 := by
  rw [sortSwitches, sortSwitches]
  exact @insertionSort_perm_eq String switchLe
    (fun a b c hab hbc => switchLe_trans hab hbc)
    (fun a b => switchLe_total a b)
    l1 l2 hperm
    (fun a ha b hb hab hba => hanti a ha b hb (switchLe_both_iff_eq hab hba))

theorem ciDedupAux_spec : ∀ (l seen : List String),
    (∀ a ∈ ciDedupAux seen l, ∀ s ∈ seen, switchEq s a = false) ∧
    (ciDedupAux seen l).Pairwise (fun a b => switchEq a b = false) := by
  intro l
  induction l with
  | nil =>
      intro seen
      exact ⟨fun a ha => absurd ha (List.not_mem_nil a), List.Pairwise.nil⟩
  | cons s rest ih =>
      intro seen
      rw [ciDedupAux]
      by_cases hseen : seen.any (fun t => switchEq s t) = true
      · rw [if_pos hseen]
        exact ih seen
      · rw [if_neg hseen]
        have hnot : ∀ t ∈ seen, switchEq s t = false := by
          intro t ht
          cases hb : switchEq s t
          · rfl
          · exact absurd (List.any_eq_true.mpr ⟨t, ht, hb⟩) hseen
        obtain ⟨ihA, ihP⟩ := ih (s :: seen)
        constructor
        · intro a ha s' hs'
          rcases List.mem_cons.mp ha with rfl | hm
          · have hss' := hnot s' hs'
            cases hb : switchEq s' a
            · rfl
            · have h2 := switchEq_symm hb
              rw [h2] at hss'
              cases hss'
          · exact ihA a hm s' (List.mem_cons_of_mem s hs')
        · rw [List.pairwise_cons]
          exact ⟨fun a ha => ihA a ha s (List.mem_cons_self s seen), ihP⟩

theorem pairwise_switchEq_anti {l : List String}
    (hp : l.Pairwise (fun a b => switchEq a b = false)) :
    ∀ a ∈ l, ∀ b ∈ l, switchEq a b = true → a = b := by
  intro a ha b hb heq
  by_contra hne
  have hsymR : Symmetric (fun a b : String => switchEq a b = false) := by
    intro x y hxy
    cases hb2 : switchEq y x
    · rfl
    · have h2 := switchEq_symm hb2
      rw [h2] at hxy
      cases hxy
  have hfalse := List.Pairwise.forall hsymR hp ha hb hne
  rw [heq] at hfalse
  cases hfalse

theorem optMap_congr {α β : Type} {f g : α → Option β} :
    ∀ (l : List α), (∀ x ∈ l, f x = g x) → optMap f l = optMap g l := by
  intro l
  induction l with
  | nil => intro _; rfl
  | cons x xs ih =>
      intro h
      rw [optMap, optMap, h x (List.mem_cons_self x xs),
        ih (fun y hy => h y (List.mem_cons_of_mem x hy))]

theorem printSwitchF_sigma {cat : Catalog} {args : Args} {e : Bool}
    {σ1 σ2 : List String → List String} (h1 : PermFn σ1) (h2 : PermFn σ2) :
    ∀ (fuel : Nat) (sw : String) (level : Nat),
      printSwitchF cat σ1 args e fuel sw level =
        printSwitchF cat σ2 args e fuel sw level := by
  intro fuel
  induction fuel with
  | zero => intro sw level; rfl
  | succ n ih =>
      intro sw level
      rw [printSwitchF, printSwitchF]
      rcases hc : commentTextF cat (n + 1) sw args e with _ | comment
      · simp only [hc]
      · simp only [hc]
        rcases hch : getChildSwitchesF cat (n + 1) sw e with _ | children
        · simp only [hch]
        · simp only [hch]
          rw [optMap_congr (sortSwitches children)
            (fun child _ => ih child (level + 1))]
          rcases hom : optMap
              (fun child => printSwitchF cat σ2 args e n child (level + 1))
              (sortSwitches children) with _ | recLines
          · simp only [hom]
          · simp only [hom]
            rw [sortStrings_swMessages_eq h1 h2 cat sw e]

theorem printReferencesF_sigma {cat : Catalog} {args : Args} {e : Bool}
    {σ1 σ2 : List String → List String} (h1 : PermFn σ1) (h2 : PermFn σ2)
    (fuel : Nat) (sw : String) (level : Nat) :
    printReferencesF cat σ1 args e fuel sw level =
      printReferencesF cat σ2 args e fuel sw level := by
  rw [printReferencesF, printReferencesF]
  rcases hch : getChildSwitchesF cat fuel sw e with _ | children
  · rfl
  · show (match optMap (fun child => printSwitchF cat σ1 args e fuel child level)
        (sortSwitches children) with
      | none => none
      | some recLines => some recLines.flatten) =
      (match optMap (fun child => printSwitchF cat σ2 args e fuel child level)
        (sortSwitches children) with
      | none => none
      | some recLines => some recLines.flatten)
    rw [optMap_congr (sortSwitches children)
      (fun child _ => printSwitchF_sigma h1 h2 fuel child level)]

theorem mainLoopF_sigma {cat : Catalog} {args : Args}
    {σ1 σ2 : List String → List String} (h1 : PermFn σ1) (h2 : PermFn σ2)
    (fuel : Nat) :
    ∀ (l : List String),
      mainLoopF cat σ1 args fuel l = mainLoopF cat σ2 args fuel l := by
  intro l
  induction l with
  | nil => rfl
  | cons s rest ih =>
      rw [mainLoopF, mainLoopF]
      rcases hskip : (if args.top_level then
          if !(swIsTopLevel cat s) then some true
          else swIsEnabledF cat fuel s
        else some false) with _ | b
      · simp only [hskip]
      · simp only [hskip]
        rcases b
        · rcases hcm : commentTextF cat fuel s args false with _ | comment
          · simp only [hcm]
          · simp only [hcm]
            rw [show (if args.unique then some []
                else printReferencesF cat σ1 args false fuel s 1) =
                (if args.unique then some []
                else printReferencesF cat σ2 args false fuel s 1) from ?_,
              sortStrings_swMessages_eq h1 h2 cat s false, ih]
            by_cases hu : args.unique
            · rw [if_pos hu, if_pos hu]
            · rw [if_neg hu, if_neg hu]
              exact printReferencesF_sigma h1 h2 fuel s 1
        · exact ih

theorem topSectionF_sigma {cat : Catalog} {args : Args}
    {σm1 σm2 σs1 σs2 : List String → List String}
    (h1 : PermFn σm1) (h2 : PermFn σm2) (h3 : PermFn σs1) (h4 : PermFn σs2)
    (fuel : Nat) :
    topSectionF cat σm1 σs1 args fuel = topSectionF cat σm2 σs2 args fuel := by
  rw [topSectionF, topSectionF]
  rcases hdef : allDefaultsF cat fuel with _ | defaults
  · rfl
  · simp only [hdef]
    rcases hch : defaultChildrenF cat fuel defaults with _ | children
    · rfl
    · simp only [hch]
      have hpair : defaults.Pairwise (fun a b => switchEq a b = false) := by
        rw [allDefaultsF] at hdef
        rcases hflt : optFilter (fun s => swEnabledOrPartialF cat fuel s)
            (switchNames cat) with _ | filtered
        · rw [hflt] at hdef
          cases hdef
        · rw [hflt] at hdef
          cases hdef
          exact (ciDedupAux_spec filtered []).2
      have htop : (defaults.filter
          (fun s => !(children.any (fun t => switchEq s t)))).Pairwise
          (fun a b => switchEq a b = false) :=
        List.Pairwise.sublist (List.filter_sublist defaults) hpair
      have hanti := pairwise_switchEq_anti htop
      have hperm := (h3 (defaults.filter
          (fun s => !(children.any (fun t => switchEq s t))))).trans
        (h4 (defaults.filter
          (fun s => !(children.any (fun t => switchEq s t))))).symm
      have hsorteq := sortSwitches_perm_eq hperm (fun a ha b hb =>
        hanti a ((h3 _).mem_iff.mp ha) b ((h3 _).mem_iff.mp hb))
      rw [hsorteq,
        optMap_congr _ (fun s _ => printSwitchF_sigma h1 h2 fuel s 1)]

/-- C5: for a fixed catalog and fixed output-mode toggles, the rendered
output of `main` is identical for any two runs, i.e. for any two
enumerations of the internal Python sets (message sets and the
`toplevel_defaults` set): everything printed is sorted before printing,
message strings under the total lexicographic order and switch sets —
deduplicated case-insensitively — under the case-insensitive switch
order, which is total on them. -/
theorem C5_deterministic_output (cat : Catalog) (args : Args) (fuel : Nat)
    (σm1 σm2 σs1 σs2 : List String → List String)
    (h1 : PermFn σm1) (h2 : PermFn σm2) (h3 : PermFn σs1) (h4 : PermFn σs2) :
    mainOutputF cat args fuel σm1 σs1 = mainOutputF cat args fuel σm2 σs2 := by
  rw [mainOutputF, mainOutputF]
  rw [show (if args.top_level then topSectionF cat σm1 σs1 args fuel else some []) =
      (if args.top_level then topSectionF cat σm2 σs2 args fuel else some []) from ?_,
    mainLoopF_sigma h1 h2 fuel (sortSwitches (switchNames cat))]
  by_cases ht : args.top_level
  · rw [if_pos ht, if_pos ht]
    exact topSectionF_sigma h1 h2 h3 h4 fuel
  · rw [if_neg ht, if_neg ht]

/-- Witness for C5 on the round-trip catalog in full text mode, with the
identity enumeration against the reversal enumeration. -/
theorem C5_deterministic_output_witness :
    PermFn id ∧ PermFn List.reverse ∧
    mainOutputF rtCat ⟨false, true, true⟩ 10 id id =
      mainOutputF rtCat ⟨false, true, true⟩ 10 List.reverse List.reverse :=
  ⟨fun l => List.Perm.refl l, fun l => List.reverse_perm l,
   C5_deterministic_output rtCat ⟨false, true, true⟩ 10 id List.reverse id
     List.reverse (fun l => List.Perm.refl l) (fun l => List.reverse_perm l)
     (fun l => List.Perm.refl l) (fun l => List.reverse_perm l)⟩
